import Mathlib

/-!
Verification development for the Matroska/EBML rewrite engine of the
tagparser repository.  The definitions below are shallow embeddings of the
functions in src/matroska/matroskacontainer.cpp and
src/unnamed/part_001 (GenericFileElement); machine integers are modelled
as Nat, and byte output as lists of Nat values below 256.
-/

/-- Model of the tag/index position setting used by the planner
(ElementPosition in the source). -/
inductive ElementPosition
  | beforeData
  | afterData
  | keep
deriving DecidableEq

/-- Modelled from the spec: EbmlElement::calculateUIntegerLength
(ebmlelement.cpp is not under src/; callers are at
src/matroska/matroskacontainer.cpp lines 831 and 1247).  Number of bytes
(1..8) needed to store an unsigned integer content value. -/
def calculateUIntegerLength (v : Nat) : Nat :=
  if v ≤ 0xFF then 1
  else if v ≤ 0xFFFF then 2
  else if v ≤ 0xFFFFFF then 3
  else if v ≤ 0xFFFFFFFF then 4
  else if v ≤ 0xFFFFFFFFFF then 5
  else if v ≤ 0xFFFFFFFFFFFF then 6
  else if v ≤ 0xFFFFFFFFFFFFFF then 7
  else 8

/-- Modelled from the spec: EbmlElement::calculateSizeDenotationLength
(ebmlelement.cpp is not under src/).  Width of an EBML VINT size
denotation: the minimum k in 1..8 such that v is below 2 ^ (7 * k) - 1
(the all-ones pattern is reserved), capped at 8. -/
def calculateSizeDenotationLength (v : Nat) : Nat :=
  if v < 0x7F then 1
  else if v < 0x3FFF then 2
  else if v < 0x1FFFFF then 3
  else if v < 0xFFFFFFF then 4
  else if v < 0x7FFFFFFFF then 5
  else if v < 0x3FFFFFFFFFF then 6
  else if v < 0x1FFFFFFFFFFFF then 7
  else 8

/-- Model of the data fields of GenericFileElement
(src/unnamed/part_001 lines 124-138).  The owning child and sibling
pointers of the source are modelled as optional references, the
container pointer as a reference value. -/
structure GenericFileElement where
  id : Nat
  startOffset : Nat
  idLength : Nat
  dataSize : Nat
  sizeLength : Nat
  parent : Option Nat
  nextSibling : Option Nat
  firstChild : Option Nat
  container : Nat
  maxSize : Nat
  parsed : Bool

/-- GenericFileElement::clear (src/unnamed/part_001 lines 573-584):
resets id, id length, data size and size length, deletes the first child
and the next sibling, clears the parsed flag; the start offset assignment
is commented out in the source and maxSize, container and parent are not
touched. -/
def GenericFileElement.clear (e : GenericFileElement) : GenericFileElement :=
  { e with
    id := 0
    idLength := 0
    dataSize := 0
    sizeLength := 0
    nextSibling := none
    firstChild := none
    parsed := false }

/-- Big-endian byte serialization of a 64-bit value
(BE::getBytes on uint64 at src/matroska/matroskacontainer.cpp line 1540). -/
def beBytes8 (v : Nat) : List Nat :=
  [(v >>> 56) % 256, (v >>> 48) % 256, (v >>> 40) % 256, (v >>> 32) % 256,
   (v >>> 24) % 256, (v >>> 16) % 256, (v >>> 8) % 256, v % 256]

/-- Bytes of the padding Void element written by internalMakeFile
(src/matroska/matroskacontainer.cpp lines 1530-1549): identifier 0xEC,
then a 1-byte size denotation ((n - 2) with the top bit set) when
n < 64, otherwise an 8-byte size denotation ((n - 9) with the VINT
marker bit 2 ^ 56 set, big endian), then the denoted number of zero
bytes. -/
def makeVoid (n : Nat) : List Nat :=
  if n < 64 then
    0xEC :: ((n - 2) ||| 0x80) :: List.replicate (n - 2) 0
  else
    0xEC :: (beBytes8 ((n - 9) ||| 0x100000000000000) ++ List.replicate (n - 9) 0)

/-- Header length (identifier plus size denotation) of the Void element
emitted by makeVoid. -/
def voidHeaderLength (n : Nat) : Nat :=
  if n < 64 then 2 else 9

/-- Parse attempts performed by the top-level element loop of
MatroskaContainer::internalParseHeader (src/matroska/matroskacontainer.cpp
lines 354-521).  Each list entry tells whether parse() of that top-level
sibling succeeds; the catch handler at lines 517-521 records a Critical
notification for the failing element and then executes break, leaving
the loop.  The result is the number of siblings on which parse() is
attempted. -/
def topLevelParseAttempts : List Bool → Nat
  | [] => 0
  | ok :: rest => if ok then 1 + topLevelParseAttempts rest else 1

/-- Parse attempts performed by the Segment child loop of
MatroskaContainer::internalParseHeader (src/matroska/matroskacontainer.cpp
lines 407-510).  The catch handler at lines 505-509 records a Critical
notification and then executes break, leaving the child loop. -/
def segmentChildParseAttempts : List Bool → Nat
  | [] => 0
  | ok :: rest => if ok then 1 + segmentChildParseAttempts rest else 1

/-- Outcome of MatroskaTag::parse for one Tag child inside a Tags
element (src/matroska/matroskacontainer.cpp lines 589-597). -/
inductive TagContentOutcome
  | parsed
  | noData
  | failed
deriving DecidableEq

/-- Child iteration of MatroskaContainer::internalParseTags
(src/matroska/matroskacontainer.cpp lines 583-611) for one Tags element,
restricted to Tag children.  Each child carries whether its header
parse() at line 587 succeeds and the outcome of the inner
MatroskaTag::parse.  A failing header parse propagates through the outer
catch at lines 606-609, which rethrows; a failing inner parse only adds
a notification (the tag object is kept), and NoData pops the tag; in
both of the latter cases iteration continues.  The result is the number
of tag objects retained. -/
def internalParseTagsChildren : List (Bool × TagContentOutcome) → Except Unit Nat
  | [] => Except.ok 0
  | (headerOk, content) :: rest =>
    if headerOk then
      match internalParseTagsChildren rest with
      | Except.error e => Except.error e
      | Except.ok n =>
        Except.ok ((match content with
          | TagContentOutcome.parsed => 1
          | TagContentOutcome.noData => 0
          | TagContentOutcome.failed => 1) + n)
    else Except.error ()

/-- Failure raised by the writer on cooperative cancellation
(OperationAbortedException in the source). -/
inductive MakeError
  | aborted
deriving DecidableEq

/-- Cluster writing of the full-rewrite branch of internalMakeFile
(src/matroska/matroskacontainer.cpp lines 1560-1588), after the first
cluster of the segment has been reached.  The predicate ab gives the
value of isAborted() at the k-th poll; poll number i + 1 happens after
writing cluster i (lines 1583-1585).  Clusters are abstracted to their
payloads. -/
def writeClustersRewriteGo (ab : Nat → Bool) : Nat → List Nat → Except MakeError (List Nat)
  | _, [] => Except.ok []
  | i, c :: rest =>
    if ab (i + 1) then Except.error MakeError.aborted
    else
      match writeClustersRewriteGo ab (i + 1) rest with
      | Except.error e => Except.error e
      | Except.ok out => Except.ok (c :: out)

/-- Cluster writing of the full-rewrite branch of internalMakeFile
(src/matroska/matroskacontainer.cpp lines 1553-1588): isAborted() is
polled once before the first cluster of the segment (lines 1556-1558,
poll number 0) and once after each written cluster. -/
def writeClustersRewrite (ab : Nat → Bool) (clusters : List Nat) :
    Except MakeError (List Nat) :=
  if ab 0 then Except.error MakeError.aborted
  else writeClustersRewriteGo ab 0 clusters

/-- Modelled from the spec: EbmlElement::makeUInteger (ebmlelement.cpp is
not under src/; the caller is src/matroska/matroskacontainer.cpp line
1596).  It encodes a value big endian using at least minBytes bytes and
returns the number of bytes used. -/
def makeUIntegerLength (value minBytes : Nat) : Nat :=
  max (calculateUIntegerLength value) minBytes

/-- A Cluster of the original file as seen by the in-place branch:
its start offset and, for each Position child, the triple of the child
start offset, data offset and data size. -/
structure InPlaceCluster where
  startOffset : Nat
  positionChildren : List (Nat × Nat × Nat)

/-- Effect of the in-place branch on one Position child: either the
element is voided (a Void identifier byte is written at its start
offset) or its data bytes are overwritten with the new value. -/
inductive PositionPatch
  | voided (elementStart : Nat)
  | updated (dataOffset : Nat) (value : Nat) (length : Nat)
deriving DecidableEq

/-- Patch of a single Position child in the in-place branch
(src/matroska/matroskacontainer.cpp lines 1594-1607): the new value is
the cluster start offset minus the data offset of the FIRST segment
(segmentData.front().newDataOffset, line 1596); when the value needs
more bytes than the original data size the element is voided. -/
def patchPositionChild (frontNewDataOffset clusterStart : Nat)
    (child : Nat × Nat × Nat) : PositionPatch :=
  let value := clusterStart - frontNewDataOffset
  let len := makeUIntegerLength value child.2.2
  if child.2.2 < len then PositionPatch.voided child.1
  else PositionPatch.updated child.2.1 value len

/-- Cluster pass of the in-place branch of internalMakeFile
(src/matroska/matroskacontainer.cpp lines 1589-1615).  The abort
predicate that is in scope at this point of the source is never
consulted inside this loop; the unused parameter records that fact. -/
def updateClusterPositionsInPlace (_ab : Nat → Bool)
    (frontNewDataOffset : Nat) (clusters : List InPlaceCluster) :
    Except MakeError (List PositionPatch) :=
  Except.ok
    ((clusters.map (fun c =>
      c.positionChildren.map (patchPositionChild frontNewDataOffset c.startOffset))).flatten)

/-- Output layout of one written Segment in the full-rewrite branch:
the stream position right after the segment header (line 1437), the
stream positions at which its Cluster elements are written, and the
precomputed total size of the segment (line 1302). -/
structure OutSegmentClusters where
  dataOffset : Nat
  clusterStarts : List Nat
  totalSize : Nat

/-- Position values written by the full-rewrite branch
(src/matroska/matroskacontainer.cpp lines 1560-1581): for each cluster
the value is currentPosition + (cluster start - segment data offset),
line 1564, where currentPosition starts at 0 (line 1415) and grows by
segment.totalSize after each segment (line 1655).  Each result triple is
(cluster start, data offset of the containing segment, written value). -/
def rewriteBranchPositionValuesGo (currentPosition : Nat) :
    List OutSegmentClusters → List (Nat × Nat × Nat)
  | [] => []
  | seg :: rest =>
    seg.clusterStarts.map (fun s => (s, seg.dataOffset, currentPosition + (s - seg.dataOffset)))
      ++ rewriteBranchPositionValuesGo (currentPosition + seg.totalSize) rest

/-- Position values written by the full-rewrite branch over all segments,
starting with currentPosition = 0 (line 1415). -/
def rewriteBranchPositionValues (segs : List OutSegmentClusters) : List (Nat × Nat × Nat) :=
  rewriteBranchPositionValuesGo 0 segs

/-- One MatroskaTagMaker as seen by internalMakeFile: its reported
required size and the bytes it would emit. -/
structure MatroskaTagMaker where
  requiredSize : Nat
  bytes : List Nat

/-- Size accumulation for the Tags element
(src/matroska/matroskacontainer.cpp lines 841-854): only makers whose
required size exceeds 3 bytes are counted; a tag of at most 3 bytes is
empty and skipped. -/
def tagElementsSize (makers : List MatroskaTagMaker) : Nat :=
  makers.foldl (fun acc m => if m.requiredSize > 3 then acc + m.requiredSize else acc) 0

/-- Modelled from the spec: MatroskaTagMaker::make (matroskatag.cpp is
not under src/; the callers are src/matroska/matroskacontainer.cpp lines
1502-1504 and 1634-1636).  Per the spec a maker emits exactly
required_size bytes, and a required size of at most 3 indicates an empty
tag that is dropped, emitting nothing. -/
def MatroskaTagMaker.make (m : MatroskaTagMaker) : List Nat :=
  if m.requiredSize > 3 then m.bytes else []

/-- Data bytes of the emitted Tags element
(src/matroska/matroskacontainer.cpp lines 1496-1506): the size
denotation announces tagElementsSize and the makers are emitted in
order. -/
def tagsElementData (makers : List MatroskaTagMaker) : List Nat :=
  makers.foldl (fun acc m => acc ++ m.make) []

/-- Configuration surface of the planner as read from fileInfo() in
internalMakeFile (src/matroska/matroskacontainer.cpp lines 812-824,
1201-1209 and 1321). -/
structure MakeCfg where
  forceRewrite : Bool
  savePathSet : Bool
  tagPosition : ElementPosition
  indexPosition : ElementPosition
  forceTagPosition : Bool
  forceIndexPosition : Bool
  minPadding : Nat
  maxPadding : Nat

/-- Layout facts of the original file used by the rewrite decision:
the current tag and cues positions determined in Phase A (lines 894-898
and 973-980), and the fit oracle.  fit t c abstracts the in-place layout
computation of lines 1088-1198 for the layout with tag position t and
cues position c: it returns the accumulated new padding when the layout
computation runs through without setting rewriteRequired, and none when
it does set rewriteRequired there (the recomputed metadata exceeds the
first cluster start offset, lines 1097/1176/1184-1188, or the test at
line 1178 finds the PREVIOUS round's stored segment.newPadding equal
to 1, lines 1178-1183; the test precedes the assignment at line 1180,
so a padding of exactly 1 computed in the current round is accepted and
reported through some — see paddingCheck). -/
structure LayoutOracle where
  currentTagPos : ElementPosition
  currentCuesPos : ElementPosition
  fit : ElementPosition → ElementPosition → Option Nat

/-- Outcome of the Phase B / Phase C decision: either the file is fully
rewritten or it is modified in place with the given total padding. -/
inductive MakeDecision
  | rewrite (tagPos cuesPos : ElementPosition)
  | inPlace (tagPos cuesPos : ElementPosition) (padding : Nat)
deriving DecidableEq

/-- Resolution of the preferred tag position
(src/matroska/matroskacontainer.cpp lines 906-910 and 928-933): Keep
falls back to the current position, and to BeforeData when that is also
Keep. -/
def resolveTagPos (cfg : MakeCfg) (o : LayoutOracle) : ElementPosition :=
  match cfg.tagPosition with
  | ElementPosition.keep =>
    match o.currentTagPos with
    | ElementPosition.keep => ElementPosition.beforeData
    | p => p
  | p => p

/-- Resolution of the preferred cues position
(src/matroska/matroskacontainer.cpp lines 934 and 973-980): Keep falls
back to the current cues position, and to BeforeData when that is also
Keep. -/
def resolveCuesPos (cfg : MakeCfg) (o : LayoutOracle) : ElementPosition :=
  match cfg.indexPosition with
  | ElementPosition.keep =>
    match o.currentCuesPos with
    | ElementPosition.keep => ElementPosition.beforeData
    | p => p
  | p => p

/-- Condition under which the planner may move the tags to the end to
avoid a rewrite (src/matroska/matroskacontainer.cpp line 1201, second
conjunct). -/
def tagFlipAllowed (cfg : MakeCfg) (o : LayoutOracle) : Prop :=
  ¬cfg.forceTagPosition = true ∨
    (cfg.tagPosition = ElementPosition.keep ∧ o.currentTagPos = ElementPosition.keep)

/-- Condition under which the planner may move the cues to the end to
avoid a rewrite (src/matroska/matroskacontainer.cpp line 1205, second
conjunct). -/
def cuesFlipAllowed (cfg : MakeCfg) (o : LayoutOracle) : Prop :=
  ¬cfg.forceIndexPosition = true ∨
    (cfg.indexPosition = ElementPosition.keep ∧ o.currentCuesPos = ElementPosition.keep)

instance (cfg : MakeCfg) (o : LayoutOracle) : Decidable (tagFlipAllowed cfg o) := by
  unfold tagFlipAllowed; infer_instance

instance (cfg : MakeCfg) (o : LayoutOracle) : Decidable (cuesFlipAllowed cfg o) := by
  unfold cuesFlipAllowed; infer_instance

/-- One round of calculateSegmentData and the subsequent decision
(src/matroska/matroskacontainer.cpp lines 917-1325).  When
rewriteRequired holds on entry the positions are reset to the resolved
preferences (lines 927-935) and the outcome is a full rewrite.
Otherwise the in-place layout is attempted; on success the accumulated
padding is checked against the configured bounds (lines 1319-1325), a
violation restarting the round with rewriteRequired set; on failure the
planner flips the tag position to AfterData, or else the cues position
to AfterData, restarting the round (lines 1200-1212), and when neither
flip is allowed it restarts the round with rewriteRequired set.  The
fuel bounds the number of rounds; four rounds always suffice. -/
def calculateSegmentData (cfg : MakeCfg) (o : LayoutOracle) :
    Nat → ElementPosition → ElementPosition → Bool → MakeDecision
  | 0, tagPos, cuesPos, _ => MakeDecision.rewrite tagPos cuesPos
  | fuel + 1, tagPos, cuesPos, rewriteRequired =>
    let t := if rewriteRequired then resolveTagPos cfg o else tagPos
    let c := if rewriteRequired then resolveCuesPos cfg o else cuesPos
    if rewriteRequired then MakeDecision.rewrite t c
    else
      match o.fit t c with
      | some padding =>
        if padding > cfg.maxPadding ∨ padding < cfg.minPadding then
          calculateSegmentData cfg o fuel t c true
        else MakeDecision.inPlace t c padding
      | none =>
        if t ≠ ElementPosition.afterData ∧ tagFlipAllowed cfg o then
          calculateSegmentData cfg o fuel ElementPosition.afterData c false
        else if c ≠ ElementPosition.afterData ∧ cuesFlipAllowed cfg o then
          calculateSegmentData cfg o fuel t ElementPosition.afterData false
        else
          calculateSegmentData cfg o fuel t c true

/-- Rewrite decision of internalMakeFile: rewriteRequired starts as
forceRewrite or a non-empty save file path (line 824) and the first
round starts from the resolved preferred positions (lines 906-910,
973-980). -/
def internalMakeFileDecision (cfg : MakeCfg) (o : LayoutOracle) : MakeDecision :=
  calculateSegmentData cfg o 4 (resolveTagPos cfg o) (resolveCuesPos cfg o)
    (cfg.forceRewrite || cfg.savePathSet)

/-- Whether a decision is a full rewrite. -/
def MakeDecision.isRewrite : MakeDecision → Bool
  | MakeDecision.rewrite _ _ => true
  | MakeDecision.inPlace _ _ _ => false

/-- The layouts attempted by the planner before giving up and
rewriting: the initial resolved layout, then the layout with tags moved
to AfterData when that flip is allowed, then the layout with cues moved
to AfterData when that flip is allowed. -/
def attemptedLayouts (cfg : MakeCfg) (o : LayoutOracle) :
    List (ElementPosition × ElementPosition) :=
  let t0 := resolveTagPos cfg o
  let c0 := resolveCuesPos cfg o
  (t0, c0) ::
    (if t0 ≠ ElementPosition.afterData ∧ tagFlipAllowed cfg o then
      (ElementPosition.afterData, c0) ::
        (if c0 ≠ ElementPosition.afterData ∧ cuesFlipAllowed cfg o then
          [(ElementPosition.afterData, ElementPosition.afterData)]
        else [])
    else if c0 ≠ ElementPosition.afterData ∧ cuesFlipAllowed cfg o then
      [(t0, ElementPosition.afterData)]
    else [])

/-- The first layout of a list accepted by the fit oracle, together
with its padding. -/
def firstFitAux (o : LayoutOracle) :
    List (ElementPosition × ElementPosition) →
      Option (ElementPosition × ElementPosition × Nat)
  | [] => none
  | l :: rest =>
    match o.fit l.1 l.2 with
    | some p => some (l.1, l.2, p)
    | none => firstFitAux o rest

/-- The first attempted layout accepted by the fit oracle, together
with its padding. -/
def firstFit (cfg : MakeCfg) (o : LayoutOracle) :
    Option (ElementPosition × ElementPosition × Nat) :=
  firstFitAux o (attemptedLayouts cfg o)

/-- Padding acceptance step of the in-place layout computation
(src/matroska/matroskacontainer.cpp lines 1176-1189).  Inputs: the
value segment.newPadding holds on entry (0 for a freshly constructed
SegmentData, otherwise the padding stored by the previous Phase B
round), the start offset of the first Cluster element, the recomputed
metadata end offset totalOffset, and the accumulated newPadding.  When
the metadata fits (line 1176) the code tests `segment.newPadding != 1`
at line 1178 BEFORE line 1180 assigns the freshly computed padding
`firstClusterStart - totalOffset` to segment.newPadding and adds it to
the accumulator; only when the stale stored value equals 1 (or the
metadata does not fit) is rewriteRequired set.  Returns
(rewriteRequired, segment.newPadding after the step, accumulator after
the step). -/
def paddingCheck (staleSegmentNewPadding firstClusterStart totalOffset accum : Nat) :
    Bool × Nat × Nat :=
  if totalOffset ≤ firstClusterStart then
    if staleSegmentNewPadding ≠ 1 then
      (false, firstClusterStart - totalOffset, accum + (firstClusterStart - totalOffset))
    else
      (true, staleSegmentNewPadding, accum)
  else
    (true, staleSegmentNewPadding, accum)

/-- A byte store modelling the output stream contents: the byte at each
stream position. -/
def ByteStore := Nat → Nat

/-- Modelled from the spec: one bit step of the reflected IEEE 802.3
CRC-32 (BinaryReader::readCrc32 is in c++utilities, not under src/; the
caller is src/matroska/matroskacontainer.cpp line 1715). -/
def crc32Step (crc : Nat) : Nat :=
  if crc % 2 = 1 then Nat.xor (crc / 2) 0xEDB88320 else crc / 2

/-- Modelled from the spec: folding one byte into a running IEEE CRC-32
value. -/
def crc32UpdateByte (crc b : Nat) : Nat :=
  crc32Step^[8] (Nat.xor crc (b % 256))

/-- Modelled from the spec: IEEE 802.3 CRC-32 of a byte list, with the
conventional initial value and final complement. -/
def crc32 (bytes : List Nat) : Nat :=
  Nat.xor (bytes.foldl crc32UpdateByte 0xFFFFFFFF) 0xFFFFFFFF

/-- Bytes of the store in the range starting at start, of the given
length. -/
def extractRange (out : ByteStore) (start len : Nat) : List Nat :=
  (List.range len).map (fun i => out (start + i))

/-- Little-endian store of a 32-bit value at the given position
(BinaryWriter::writeUInt32LE at src/matroska/matroskacontainer.cpp line
1715). -/
def storeLE32 (out : ByteStore) (pos value : Nat) : ByteStore :=
  fun i =>
    if i = pos then value % 256
    else if i = pos + 1 then (value >>> 8) % 256
    else if i = pos + 2 then (value >>> 16) % 256
    else if i = pos + 3 then (value >>> 24) % 256
    else out i

/-- Little-endian read of a 32-bit value at the given position. -/
def readLE32 (out : ByteStore) (pos : Nat) : Nat :=
  out pos + 256 * out (pos + 1) + 65536 * out (pos + 2) + 16777216 * out (pos + 3)

/-- A segment as recorded for the CRC-32 backpatch pass: whether its
original first child was a CRC-32 element (segment.hasCrc32, line 986),
its data offset in the output (line 1437) and its total data size. -/
structure CrcSegment where
  hasCrc32 : Bool
  newDataOffset : Nat
  totalDataSize : Nat

/-- The crc32Offsets entries collected while writing
(src/matroska/matroskacontainer.cpp lines 1440-1447): a pair of the
placeholder position (the segment data offset, since the 6-byte CRC-32
element is the first write into the segment data) and the total data
size of the enclosing segment, recorded exactly for the segments whose
original first child was a CRC-32 element. -/
def crc32Offsets (segs : List CrcSegment) : List (Nat × Nat) :=
  (segs.filter (fun s => s.hasCrc32)).map (fun s => (s.newDataOffset, s.totalDataSize))

/-- One CRC-32 backpatch (src/matroska/matroskacontainer.cpp lines
1712-1716): the stream is positioned for reading at the placeholder
position plus 6 and for writing at the placeholder position plus 2, and
the IEEE CRC-32 of the following totalDataSize - 6 bytes is written
little endian. -/
def applyCrc32Patch (out : ByteStore) (p : Nat × Nat) : ByteStore :=
  storeLE32 out (p.1 + 2) (crc32 (extractRange out (p.1 + 6) (p.2 - 6)))

/-- The CRC-32 backpatch pass (src/matroska/matroskacontainer.cpp lines
1710-1717), applied to every recorded placeholder in order. -/
def applyCrc32Patches (out : ByteStore) (patches : List (Nat × Nat)) : ByteStore :=
  patches.foldl applyCrc32Patch out

/-- Modelled from the spec: serialized size of one Seek entry of a
SeekHead for a stored offset (MatroskaSeekInfo is in
matroskaseekinfo.cpp, not under src/): the Seek element header, the
SeekID child with a four byte identifier, and the SeekPosition child
whose data is the encoded offset.  Only monotonicity and boundedness in
the offset matter for the fixed point. -/
def seekEntrySize (offset : Nat) : Nat :=
  12 + calculateUIntegerLength offset

/-- Modelled from the spec: MatroskaSeekInfo::actualSize, the serialized
size of the SeekHead element given the current entries: element header
plus the sum of the entry sizes. -/
def seekInfoActualSize (entries : List ((Nat × Nat) × Nat)) : Nat :=
  12 + (entries.map (fun e => seekEntrySize e.2)).sum

/-- Modelled from the spec: serialized size of the CueClusterPosition
data for one cue entry (MatroskaCuePositionUpdater is in
matroskacues.cpp, not under src/). -/
def cueEntrySize (offset : Nat) : Nat :=
  6 + calculateUIntegerLength offset

/-- Modelled from the spec: MatroskaCuePositionUpdater::totalSize, the
serialized size of the Cues element given the current entries. -/
def cuesTotalSize (entries : List (Nat × Nat)) : Nat :=
  12 + (entries.map (fun e => cueEntrySize e.2)).sum

/-- Insert-or-update of a keyed entry list, as performed by
MatroskaSeekInfo::push and MatroskaCuePositionUpdater::updateOffsets:
the first entry with the given key is replaced, and a missing key is
appended. -/
def setEntry {κ : Type} [DecidableEq κ] : List (κ × Nat) → κ → Nat → List (κ × Nat)
  | [], key, off => [(key, off)]
  | e :: rest, key, off =>
    if e.1 = key then (key, off) :: rest else e :: setEntry rest key off

/-- Mutable state of the Phase B computation for one segment: the
SeekHead entries (keyed by (index, id), lines 1000/1037/1054/...) and
the cue entries of the cues updater (keyed by the original cluster read
offset, lines 1121 and 1227).  On entry to Phase B the seek info of a
freshly constructed SegmentData is empty, but the cues updater is NOT:
it is pre-populated from the original Cues element by
segment.cuesUpdater.parse at line 958, so its entries initially hold
the cluster offsets of the original file, which may exceed the offsets
the coming passes will store. -/
structure PlanState where
  seekEntries : List ((Nat × Nat) × Nat)
  cueEntries : List (Nat × Nat)

/-- One step of the pretend-write pass of calculateSegmentSize
(src/matroska/matroskacontainer.cpp lines 989-1295).  add is a size
contribution taken from the original file (SegmentInfo, Tracks,
Chapters, Tags, Attachments, cluster sizes); seekPush is a
seekInfo.push whose offset is currentPosition plus the running total;
seekPushConst is a seekInfo.push with an offset that does not depend on
the running total (line 1114); cuesUpdate is a
cuesUpdater.updateOffsets with the running offset (line 1227);
cuesUpdateConst is the same with an offset independent of the running
total (line 1121); addCuesSize adds cuesUpdater.totalSize() (lines
1083/1135/1267).  A push or update whose size report differs restarts
the pass (goto calculateSegmentSize / addCuesElementSize). -/
inductive PlanStep
  | add (contrib : Nat)
  | seekPush (key : Nat × Nat)
  | seekPushConst (key : Nat × Nat) (offset : Nat)
  | cuesUpdate (key : Nat)
  | cuesUpdateConst (key : Nat) (offset : Nat)
  | addCuesSize
deriving DecidableEq

/-- The SeekHead key pushed by a step, if any. -/
def seekStepKey : PlanStep → Option (Nat × Nat)
  | PlanStep.seekPush k => some k
  | PlanStep.seekPushConst k _ => some k
  | _ => none

/-- The cue key updated by a step, if any. -/
def cueStepKey : PlanStep → Option Nat
  | PlanStep.cuesUpdate k => some k
  | PlanStep.cuesUpdateConst k _ => some k
  | _ => none

/-- All SeekHead keys pushed by a step list. -/
def seekStepKeys (steps : List PlanStep) : List (Nat × Nat) :=
  steps.filterMap seekStepKey

/-- All cue keys updated by a step list. -/
def cueStepKeys (steps : List PlanStep) : List Nat :=
  steps.filterMap cueStepKey

/-- One pass of calculateSegmentSize over the remaining steps, carrying
the running totalDataSize.  A push or update that changes the reported
serialized size aborts the pass (the goto back to the label), returning
none together with the state after that push; a full pass with no size
change returns the computed totalDataSize. -/
def runPassAux (cp : Nat) : PlanState → Nat → List PlanStep → PlanState × Option Nat
  | st, total, [] => (st, some total)
  | st, total, step :: rest =>
    match step with
    | PlanStep.add c => runPassAux cp st (total + c) rest
    | PlanStep.addCuesSize =>
      runPassAux cp st (total + cuesTotalSize st.cueEntries) rest
    | PlanStep.seekPush key =>
      let entries := setEntry st.seekEntries key (cp + total)
      if seekInfoActualSize entries = seekInfoActualSize st.seekEntries then
        runPassAux cp { st with seekEntries := entries } total rest
      else ({ st with seekEntries := entries }, none)
    | PlanStep.seekPushConst key off =>
      let entries := setEntry st.seekEntries key off
      if seekInfoActualSize entries = seekInfoActualSize st.seekEntries then
        runPassAux cp { st with seekEntries := entries } total rest
      else ({ st with seekEntries := entries }, none)
    | PlanStep.cuesUpdate key =>
      let entries := setEntry st.cueEntries key (cp + total)
      if cuesTotalSize entries = cuesTotalSize st.cueEntries then
        runPassAux cp { st with cueEntries := entries } total rest
      else ({ st with cueEntries := entries }, none)
    | PlanStep.cuesUpdateConst key off =>
      let entries := setEntry st.cueEntries key off
      if cuesTotalSize entries = cuesTotalSize st.cueEntries then
        runPassAux cp { st with cueEntries := entries } total rest
      else ({ st with cueEntries := entries }, none)

/-- One pass of calculateSegmentSize from its start: the running total
begins with the CRC-32 placeholder size and the current SeekHead size
(src/matroska/matroskacontainer.cpp lines 992-995). -/
def runSegmentPass (cp crc : Nat) (steps : List PlanStep) (st : PlanState) :
    PlanState × Option Nat :=
  runPassAux cp st (crc + seekInfoActualSize st.seekEntries) steps

/-- The restart loop around calculateSegmentSize: the pass is re-run
from the start whenever a push or update reported a size change, with
the fuel bounding the number of passes. -/
def calculateSegmentSizeIter (cp crc : Nat) (steps : List PlanStep) :
    Nat → PlanState → Option (PlanState × Nat)
  | 0, _ => none
  | fuel + 1, st =>
    match runSegmentPass cp crc steps st with
    | (st2, some total) => some (st2, total)
    | (st2, none) => calculateSegmentSizeIter cp crc steps fuel st2

/-- The offset that the pass would store for SeekHead key k given the
current Cues size: the search walks the steps accumulating the running
total the same way the pass does. -/
def seekTargetAux (cp cueSize : Nat) (k : Nat × Nat) : Nat → List PlanStep → Option Nat
  | _, [] => none
  | total, step :: rest =>
    match step with
    | PlanStep.add c => seekTargetAux cp cueSize k (total + c) rest
    | PlanStep.addCuesSize => seekTargetAux cp cueSize k (total + cueSize) rest
    | PlanStep.seekPush key =>
      if key = k then some (cp + total) else seekTargetAux cp cueSize k total rest
    | PlanStep.seekPushConst key off =>
      if key = k then some off else seekTargetAux cp cueSize k total rest
    | PlanStep.cuesUpdate _ => seekTargetAux cp cueSize k total rest
    | PlanStep.cuesUpdateConst _ _ => seekTargetAux cp cueSize k total rest

/-- The offset that the pass would store for cue key k given the
current Cues size. -/
def cueTargetAux (cp cueSize : Nat) (k : Nat) : Nat → List PlanStep → Option Nat
  | _, [] => none
  | total, step :: rest =>
    match step with
    | PlanStep.add c => cueTargetAux cp cueSize k (total + c) rest
    | PlanStep.addCuesSize => cueTargetAux cp cueSize k (total + cueSize) rest
    | PlanStep.seekPush _ => cueTargetAux cp cueSize k total rest
    | PlanStep.seekPushConst _ _ => cueTargetAux cp cueSize k total rest
    | PlanStep.cuesUpdate key =>
      if key = k then some (cp + total) else cueTargetAux cp cueSize k total rest
    | PlanStep.cuesUpdateConst key off =>
      if key = k then some off else cueTargetAux cp cueSize k total rest

/-- The offset that a full pass from the start would store for SeekHead
key k. -/
def seekTarget (cp crc : Nat) (steps : List PlanStep) (st : PlanState) (k : Nat × Nat) :
    Option Nat :=
  seekTargetAux cp (cuesTotalSize st.cueEntries) k
    (crc + seekInfoActualSize st.seekEntries) steps

/-- The offset that a full pass from the start would store for cue key
k. -/
def cueTarget (cp crc : Nat) (steps : List PlanStep) (st : PlanState) (k : Nat) :
    Option Nat :=
  cueTargetAux cp (cuesTotalSize st.cueEntries) k
    (crc + seekInfoActualSize st.seekEntries) steps

/-- Sum of the serialized sizes tracked by the fixed point: the SeekHead
size plus the Cues size.  Every restart of the pass strictly increases
this measure. -/
def planMeasure (st : PlanState) : Nat :=
  seekInfoActualSize st.seekEntries + cuesTotalSize st.cueEntries

/-- Invariant under which the termination argument of the spec (sizes
monotone in offsets, offsets monotone in the running total) goes
through: entry keys are unique and stem from the step list, and every
stored offset is at most the offset that the next pass would store for
its key.  The invariant is preserved by every push and update of the
pass, and it holds for the empty state; it does NOT cover the
program's actual Phase B entry state, whose cues updater is
pre-populated from the original Cues element at line 958 with offsets
that may exceed the recomputed targets. -/
structure PlanInv (cp crc : Nat) (steps : List PlanStep) (st : PlanState) : Prop where
  seekNodup : (st.seekEntries.map Prod.fst).Nodup
  cueNodup : (st.cueEntries.map Prod.fst).Nodup
  seekKeysSub : ∀ k ∈ st.seekEntries.map Prod.fst, k ∈ seekStepKeys steps
  cueKeysSub : ∀ k ∈ st.cueEntries.map Prod.fst, k ∈ cueStepKeys steps
  seekLe : ∀ k off, (k, off) ∈ st.seekEntries →
    ∃ t, seekTarget cp crc steps st k = some t ∧ off ≤ t
  cueLe : ∀ k off, (k, off) ∈ st.cueEntries →
    ∃ t, cueTarget cp crc steps st k = some t ∧ off ≤ t

/-- Upper bound of planMeasure over all states whose entry keys stem
from the step list. -/
def planMeasureBound (steps : List PlanStep) : Nat :=
  24 + 20 * ((seekStepKeys steps).length + (cueStepKeys steps).length)

/-- C10: GenericFileElement::clear resets the identifier, identifier
length, data size and size length to zero, deletes the first child and
next sibling, and clears the parsed flag, while leaving the start
offset, maximum size, container reference and parent pointer
unchanged. -/
theorem genericFileElement_clear_frame (e : GenericFileElement) :
    e.clear.id = 0 ∧ e.clear.idLength = 0 ∧ e.clear.dataSize = 0 ∧
    e.clear.sizeLength = 0 ∧ e.clear.firstChild = none ∧
    e.clear.nextSibling = none ∧ e.clear.parsed = false ∧
    e.clear.startOffset = e.startOffset ∧ e.clear.maxSize = e.maxSize ∧
    e.clear.container = e.container ∧ e.clear.parent = e.parent :=
  ⟨rfl, rfl, rfl, rfl, rfl, rfl, rfl, rfl, rfl, rfl, rfl⟩

/-- C4 counterexample: for a padding of N = 64 bytes the claim predicts
a 1-byte size denotation because N - 2 = 62 ≤ 0x7E, but the writer
switches to the 8-byte denotation already at N = 64 (the source tests
newPadding < 64 at line 1535), so the emitted bytes differ from the
claimed layout. -/
theorem makeVoid_boundary_counterexample :
    ¬ makeVoid 64 = 0xEC :: ((64 - 2) ||| 0x80) :: List.replicate (64 - 2) 0 := by
  decide

/-- C4 (amended): a padding Void element of n = segment.newPadding ≥ 2
bytes consists of the identifier 0xEC, a size denotation that is 1 byte
when n < 64 and 8 bytes otherwise, and n - header_length zero bytes;
the bytes written total exactly n. -/
theorem makeVoid_total_length (n : Nat) (h : 2 ≤ n) :
    (makeVoid n).length = n ∧
    makeVoid n = 0xEC :: ((if n < 64 then [(n - 2) ||| 0x80]
      else beBytes8 ((n - 9) ||| 0x100000000000000)) ++
      List.replicate (n - voidHeaderLength n) 0) ∧
    voidHeaderLength n = if n < 64 then 2 else 9 := by
  unfold makeVoid voidHeaderLength
  by_cases h64 : n < 64
  · simp only [if_pos h64, List.length_cons, List.length_replicate, List.cons_append,
      List.nil_append]
    exact ⟨by omega, by trivial, by trivial⟩
  · simp only [if_neg h64, List.length_cons, List.length_append, List.length_replicate]
    refine ⟨?_, by trivial, by trivial⟩
    have hb : (beBytes8 ((n - 9) ||| 0x100000000000000)).length = 8 := rfl
    omega

/-- Witness for the amended C4 statement at n = 100. -/
theorem makeVoid_total_length_witness :
    (makeVoid 100).length = 100 ∧
    makeVoid 100 = 0xEC :: ((if 100 < 64 then [(100 - 2) ||| 0x80]
      else beBytes8 ((100 - 9) ||| 0x100000000000000)) ++
      List.replicate (100 - voidHeaderLength 100) 0) ∧
    voidHeaderLength 100 = if 100 < 64 then 2 else 9 :=
  makeVoid_total_length 100 (by decide)

/-- C8 counterexample: among two Segment children whose first fails to
parse, only one parse attempt is made; the catch handler at lines
505-509 breaks out of the loop instead of continuing with the second
sibling, so the failure does prevent the remaining sibling from being
parsed. -/
theorem sibling_parse_counterexample :
    ¬ segmentChildParseAttempts [false, true] = [false, true].length := by
  decide

/-- C8 (amended): a parse failure of a sibling stops the iteration over
the remaining siblings of that level: both the top-level loop and the
Segment child loop attempt exactly the longest succeeding prior run plus
the one failing sibling.  Only within a Tags element does a failure of
the inner tag content parse leave the iteration running: when every
child header parses, all children are processed and exactly the
non-NoData tags are retained. -/
theorem sibling_parse_stops_at_first_failure :
    (∀ xs : List Bool, topLevelParseAttempts xs =
      if false ∈ xs then (xs.takeWhile (fun b => b)).length + 1 else xs.length) ∧
    (∀ xs : List Bool, segmentChildParseAttempts xs =
      if false ∈ xs then (xs.takeWhile (fun b => b)).length + 1 else xs.length) ∧
    (∀ children : List (Bool × TagContentOutcome),
      (∀ c ∈ children, c.1 = true) →
      internalParseTagsChildren children =
        Except.ok ((children.filter
          (fun c => c.2 ≠ TagContentOutcome.noData)).length)) := by
  refine ⟨?_, ?_, ?_⟩
  · intro xs
    induction xs with
    | nil => simp [topLevelParseAttempts]
    | cons ok rest ih =>
      cases ok with
      | true =>
        have h1 : topLevelParseAttempts (true :: rest) = 1 + topLevelParseAttempts rest := rfl
        have h2 : List.takeWhile (fun b => b) (true :: rest) =
            true :: List.takeWhile (fun b => b) rest := rfl
        rw [h1, ih, h2]
        by_cases hf : false ∈ rest
        · rw [if_pos hf, if_pos (List.mem_cons_of_mem _ hf)]
          simp only [List.length_cons]
          omega
        · rw [if_neg hf, if_neg (by simp [hf])]
          simp only [List.length_cons]
          omega
      | false => simp [topLevelParseAttempts, List.takeWhile]
  · intro xs
    induction xs with
    | nil => simp [segmentChildParseAttempts]
    | cons ok rest ih =>
      cases ok with
      | true =>
        have h1 : segmentChildParseAttempts (true :: rest) = 1 + segmentChildParseAttempts rest := rfl
        have h2 : List.takeWhile (fun b => b) (true :: rest) =
            true :: List.takeWhile (fun b => b) rest := rfl
        rw [h1, ih, h2]
        by_cases hf : false ∈ rest
        · rw [if_pos hf, if_pos (List.mem_cons_of_mem _ hf)]
          simp only [List.length_cons]
          omega
        · rw [if_neg hf, if_neg (by simp [hf])]
          simp only [List.length_cons]
          omega
      | false => simp [segmentChildParseAttempts, List.takeWhile]
  · intro children h
    induction children with
    | nil => rfl
    | cons c rest ih =>
      have hc : c.1 = true := h c (List.mem_cons_self c rest)
      have hrest : ∀ x ∈ rest, x.1 = true := fun x hx => h x (List.mem_cons_of_mem c hx)
      obtain ⟨b, content⟩ := c
      simp only at hc
      subst hc
      simp only [internalParseTagsChildren, if_pos, ih hrest, List.filter]
      cases content <;> simp [List.length_cons] <;> omega

/-- Witness for the amended C8 statement: a Tags element with a failing
first tag content parse still yields both retained tags. -/
theorem sibling_parse_stops_at_first_failure_witness :
    internalParseTagsChildren
      [(true, TagContentOutcome.failed), (true, TagContentOutcome.parsed)] =
      Except.ok (([(true, TagContentOutcome.failed), (true, TagContentOutcome.parsed)].filter
        (fun c => c.2 ≠ TagContentOutcome.noData)).length) :=
  sibling_parse_stops_at_first_failure.2.2 _ (by decide)

/-- Helper: the cluster loop of the full-rewrite branch fails with
Aborted exactly when one of its polls, numbered from i + 1 to
i + length, reports true. -/
theorem writeClustersRewriteGo_error_iff (ab : Nat → Bool) (i : Nat) (cs : List Nat) :
    writeClustersRewriteGo ab i cs = Except.error MakeError.aborted ↔
      ∃ k, i < k ∧ k ≤ i + cs.length ∧ ab k = true := by
  induction cs generalizing i with
  | nil =>
    constructor
    · intro h
      simp [writeClustersRewriteGo] at h
    · rintro ⟨k, h1, h2, _⟩
      simp at h2
      omega
  | cons c rest ih =>
    by_cases hab : ab (i + 1) = true
    · constructor
      · intro _
        exact ⟨i + 1, by omega, by simp only [List.length_cons]; omega, hab⟩
      · intro _
        simp [writeClustersRewriteGo, hab]
    · constructor
      · intro h
        simp only [writeClustersRewriteGo, if_neg hab] at h
        have h2 : writeClustersRewriteGo ab (i + 1) rest = Except.error MakeError.aborted := by
          rcases hgo : writeClustersRewriteGo ab (i + 1) rest with e | out
          · cases e
            rfl
          · rw [hgo] at h
            simp at h
        obtain ⟨k, hk1, hk2, hk3⟩ := (ih (i + 1)).mp h2
        exact ⟨k, by omega, by simp only [List.length_cons] at hk2 ⊢; omega, hk3⟩
      · rintro ⟨k, hk1, hk2, hk3⟩
        have hne : k ≠ i + 1 := fun he => hab (he ▸ hk3)
        have h2 : writeClustersRewriteGo ab (i + 1) rest = Except.error MakeError.aborted :=
          (ih (i + 1)).mpr ⟨k, by omega, by simp only [List.length_cons] at hk2; omega, hk3⟩
        simp [writeClustersRewriteGo, hab, h2]

/-- C9 counterexample: with the abort predicate constantly true, the
in-place branch completes its cluster pass normally instead of failing
with Aborted; the loop at lines 1589-1615 contains no isAborted()
poll. -/
theorem abort_poll_counterexample :
    ¬ updateClusterPositionsInPlace (fun _ => true) 45
        [InPlaceCluster.mk 100 [(110, 112, 2)]] =
      Except.error MakeError.aborted := by
  simp [updateClusterPositionsInPlace]

/-- C9 (amended): in the full-rewrite branch the writer polls
is_aborted before the first cluster of the segment and after every
written cluster and fails with Aborted exactly when some such poll
reports true; the in-place branch performs no abort poll during its
cluster pass and never fails there. -/
theorem abort_poll_characterization :
    (∀ (ab : Nat → Bool) (clusters : List Nat),
      writeClustersRewrite ab clusters = Except.error MakeError.aborted ↔
        ∃ k, k ≤ clusters.length ∧ ab k = true) ∧
    (∀ (ab : Nat → Bool) (front : Nat) (clusters : List InPlaceCluster) (e : MakeError),
      ¬ updateClusterPositionsInPlace ab front clusters = Except.error e) := by
  constructor
  · intro ab clusters
    unfold writeClustersRewrite
    by_cases h0 : ab 0 = true
    · simp only [if_pos h0]
      constructor
      · intro _
        exact ⟨0, Nat.zero_le _, h0⟩
      · intro _
        trivial
    · simp only [if_neg h0]
      rw [writeClustersRewriteGo_error_iff]
      constructor
      · rintro ⟨k, hk1, hk2, hk3⟩
        exact ⟨k, by omega, hk3⟩
      · rintro ⟨k, hk1, hk3⟩
        have : k ≠ 0 := fun he => h0 (he ▸ hk3)
        exact ⟨k, by omega, by omega, hk3⟩
  · intro ab front clusters e
    simp [updateClusterPositionsInPlace]

/-- Helper: length of the concatenating fold that emits the Tags
element data. -/
theorem tagsElementData_fold_length (makers : List MatroskaTagMaker) (acc : List Nat) :
    (makers.foldl (fun a m => a ++ m.make) acc).length =
      acc.length + (makers.map (fun m => m.make.length)).sum := by
  induction makers generalizing acc with
  | nil => simp
  | cons m rest ih =>
    simp only [List.foldl_cons, List.map_cons, List.sum_cons, ih, List.length_append]
    omega

/-- Helper: the size-accumulating fold of lines 841-854 as a sum. -/
theorem tagElementsSize_fold (makers : List MatroskaTagMaker) (acc : Nat) :
    makers.foldl (fun a m => if m.requiredSize > 3 then a + m.requiredSize else a) acc =
      acc + (makers.map (fun m => if m.requiredSize > 3 then m.requiredSize else 0)).sum := by
  induction makers generalizing acc with
  | nil => simp
  | cons m rest ih =>
    simp only [List.foldl_cons, List.map_cons, List.sum_cons, ih]
    by_cases hm : m.requiredSize > 3
    · simp only [if_pos hm]
      omega
    · simp only [if_neg hm]
      omega

/-- C7: a tag whose maker reports a required size of at most 3 bytes
contributes nothing to the produced file: it is not counted in the size
of the Tags element and its bytes are absent from the emitted Tags
element data, which consists of exactly tagElementsSize bytes. -/
theorem empty_tags_dropped (makers : List MatroskaTagMaker)
    (h : ∀ m ∈ makers, m.bytes.length = m.requiredSize) :
    (tagsElementData makers).length = tagElementsSize makers ∧
    ∀ m ∈ makers, m.requiredSize ≤ 3 → m.make = [] := by
  constructor
  · unfold tagsElementData tagElementsSize
    rw [tagsElementData_fold_length, tagElementsSize_fold]
    simp only [List.length_nil, Nat.zero_add]
    congr 1
    apply List.map_congr_left
    intro m hm
    unfold MatroskaTagMaker.make
    by_cases h3 : m.requiredSize > 3
    · simp only [if_pos h3]
      exact h m hm
    · simp only [if_neg h3]
      rfl
  · intro m _ h3
    unfold MatroskaTagMaker.make
    rw [if_neg (by omega)]

/-- Witness for C7 with one empty maker and one real maker. -/
theorem empty_tags_dropped_witness :
    (tagsElementData [MatroskaTagMaker.mk 3 [9, 9, 9],
        MatroskaTagMaker.mk 5 [1, 2, 3, 4, 5]]).length =
      tagElementsSize [MatroskaTagMaker.mk 3 [9, 9, 9],
        MatroskaTagMaker.mk 5 [1, 2, 3, 4, 5]] ∧
    ∀ m ∈ [MatroskaTagMaker.mk 3 [9, 9, 9], MatroskaTagMaker.mk 5 [1, 2, 3, 4, 5]],
      m.requiredSize ≤ 3 → m.make = [] :=
  empty_tags_dropped _ (by decide)

/-- C2: evaluating the full-rewrite Position computation on a
two-segment layout.  The first segment starts its data at output offset
45, holds a cluster written at offset 100 and has total size 200; the
second segment starts its data at offset 250 and holds a cluster
written at offset 300.  The cluster of the second segment receives the
Position value 250 = 200 + (300 - 250) instead of the value
300 - 250 = 50 demanded by the claim, because currentPosition
accumulates the sizes of the preceding segments (line 1564). -/
theorem cluster_position_second_segment_value :
    rewriteBranchPositionValues
      [OutSegmentClusters.mk 45 [100] 200, OutSegmentClusters.mk 250 [300] 180] =
      [(100, 45, 55), (300, 250, 250)] ∧ ¬ (300 - 250 : Nat) = 250 := by
  constructor
  · rfl
  · decide

/-- Helper: a round entered with rewriteRequired resolves the preferred
positions and decides on a full rewrite. -/
theorem calculateSegmentData_req_true (cfg : MakeCfg) (o : LayoutOracle)
    (fuel : Nat) (t c : ElementPosition) :
    calculateSegmentData cfg o (fuel + 1) t c true =
      MakeDecision.rewrite (resolveTagPos cfg o) (resolveCuesPos cfg o) := by
  simp [calculateSegmentData]

/-- Helper: a round whose layout fits checks the padding bounds. -/
theorem calculateSegmentData_fit_some (cfg : MakeCfg) (o : LayoutOracle)
    (fuel : Nat) (t c : ElementPosition) (p : Nat) (hp : o.fit t c = some p) :
    calculateSegmentData cfg o (fuel + 1) t c false =
      if p > cfg.maxPadding ∨ p < cfg.minPadding then
        calculateSegmentData cfg o fuel t c true
      else MakeDecision.inPlace t c p := by
  simp only [calculateSegmentData, if_neg (Bool.false_ne_true), hp]

/-- Helper: a round whose layout does not fit tries the tag flip, then
the cues flip, then gives up. -/
theorem calculateSegmentData_fit_none (cfg : MakeCfg) (o : LayoutOracle)
    (fuel : Nat) (t c : ElementPosition) (hp : o.fit t c = none) :
    calculateSegmentData cfg o (fuel + 1) t c false =
      if t ≠ ElementPosition.afterData ∧ tagFlipAllowed cfg o then
        calculateSegmentData cfg o fuel ElementPosition.afterData c false
      else if c ≠ ElementPosition.afterData ∧ cuesFlipAllowed cfg o then
        calculateSegmentData cfg o fuel t ElementPosition.afterData false
      else calculateSegmentData cfg o fuel t c true := by
  simp only [calculateSegmentData, if_neg (Bool.false_ne_true), hp]

/-- Helper: a fitting layout with padding inside the bounds refutes the
rewrite characterization disjunction. -/
theorem firstFit_some_within_bounds (cfg : MakeCfg) {t0 c0 : ElementPosition} {p0 : Nat}
    (hp : ¬(p0 > cfg.maxPadding ∨ p0 < cfg.minPadding)) :
    ¬((some (t0, c0, p0) : Option (ElementPosition × ElementPosition × Nat)) = none ∨
      ∃ t c p, (some (t0, c0, p0) : Option (ElementPosition × ElementPosition × Nat)) =
          some (t, c, p) ∧ (p > cfg.maxPadding ∨ p < cfg.minPadding)) := by
  rintro (h | ⟨t, c, p, heq, hbound⟩)
  · exact Option.noConfusion h
  · simp only [Option.some.injEq, Prod.mk.injEq] at heq
    obtain ⟨h1, h2, h3⟩ := heq
    subst h3
    exact hp hbound

/-- Helper: characterization of the embedded decision structure over
the fit oracle.  The planner performs a full rewrite exactly when the
caller forced it, a save file path is set, none of the attempted
layouts (initial, tags flipped to AfterData, cues flipped to AfterData)
runs through without setting rewriteRequired, or the first accepted
layout has padding outside the configured [minPadding, maxPadding]
range; otherwise the file is modified in place.  Note that an
accumulated padding of exactly 1 computed in the current round is
reported by the oracle as an accepted fit (see paddingCheck): the test
at line 1178 examines the stale previous-round segment.newPadding, not
the freshly computed value. -/
theorem rewrite_decision_characterization (cfg : MakeCfg) (o : LayoutOracle) :
    (internalMakeFileDecision cfg o).isRewrite = true ↔
      cfg.forceRewrite = true ∨ cfg.savePathSet = true ∨
      firstFit cfg o = none ∨
      ∃ t c p, firstFit cfg o = some (t, c, p) ∧
        (p > cfg.maxPadding ∨ p < cfg.minPadding) := by
  by_cases hforce : cfg.forceRewrite = true
  · have hb : (cfg.forceRewrite || cfg.savePathSet) = true := by simp [hforce]
    unfold internalMakeFileDecision
    rw [hb, show (4 : Nat) = 3 + 1 from rfl, calculateSegmentData_req_true]
    simp [MakeDecision.isRewrite, hforce]
  by_cases hsave : cfg.savePathSet = true
  · have hb : (cfg.forceRewrite || cfg.savePathSet) = true := by simp [hsave]
    unfold internalMakeFileDecision
    rw [hb, show (4 : Nat) = 3 + 1 from rfl, calculateSegmentData_req_true]
    simp [MakeDecision.isRewrite, hsave]
  simp only [Bool.not_eq_true] at hforce hsave
  have hb : (cfg.forceRewrite || cfg.savePathSet) = false := by simp [hforce, hsave]
  simp only [internalMakeFileDecision, firstFit, attemptedLayouts, hb, hforce, hsave,
    Bool.false_or, Bool.or_self, Bool.false_eq_true, false_or]
  rw [show (4 : Nat) = 3 + 1 from rfl]
  rcases hf0 : o.fit (resolveTagPos cfg o) (resolveCuesPos cfg o) with _ | p0
  · rw [calculateSegmentData_fit_none cfg o 3 _ _ hf0]
    simp only [firstFitAux, hf0]
    by_cases hT : resolveTagPos cfg o ≠ ElementPosition.afterData ∧ tagFlipAllowed cfg o
    · rw [if_pos hT, if_pos hT]
      rcases hf1 : o.fit ElementPosition.afterData (resolveCuesPos cfg o) with _ | p1
      · rw [show (3 : Nat) = 2 + 1 from rfl, calculateSegmentData_fit_none cfg o 2 _ _ hf1]
        rw [if_neg (by simp)]
        simp only [firstFitAux, hf1]
        by_cases hC : resolveCuesPos cfg o ≠ ElementPosition.afterData ∧ cuesFlipAllowed cfg o
        · rw [if_pos hC, if_pos hC]
          rcases hf2 : o.fit ElementPosition.afterData ElementPosition.afterData with _ | p2
          · rw [show (2 : Nat) = 1 + 1 from rfl, calculateSegmentData_fit_none cfg o 1 _ _ hf2]
            rw [if_neg (by simp), if_neg (by simp)]
            rw [show (1 : Nat) = 0 + 1 from rfl, calculateSegmentData_req_true]
            simp [MakeDecision.isRewrite, firstFitAux, hf2]
          · rw [show (2 : Nat) = 1 + 1 from rfl,
              calculateSegmentData_fit_some cfg o 1 _ _ _ hf2]
            simp only [firstFitAux, hf2]
            by_cases hp : p2 > cfg.maxPadding ∨ p2 < cfg.minPadding
            · rw [if_pos hp, show (1 : Nat) = 0 + 1 from rfl, calculateSegmentData_req_true]
              simp only [MakeDecision.isRewrite, true_iff]
              exact Or.inr ⟨_, _, _, rfl, hp⟩
            · rw [if_neg hp]
              simp only [MakeDecision.isRewrite, Bool.false_eq_true, false_iff]
              exact firstFit_some_within_bounds cfg hp
        · rw [if_neg hC, if_neg hC]
          rw [show (2 : Nat) = 1 + 1 from rfl, calculateSegmentData_req_true]
          simp [MakeDecision.isRewrite, firstFitAux]
      · rw [show (3 : Nat) = 2 + 1 from rfl,
          calculateSegmentData_fit_some cfg o 2 _ _ _ hf1]
        simp only [firstFitAux, hf1]
        by_cases hp : p1 > cfg.maxPadding ∨ p1 < cfg.minPadding
        · rw [if_pos hp, show (2 : Nat) = 1 + 1 from rfl, calculateSegmentData_req_true]
          simp only [MakeDecision.isRewrite, true_iff]
          exact Or.inr ⟨_, _, _, rfl, hp⟩
        · rw [if_neg hp]
          simp only [MakeDecision.isRewrite, Bool.false_eq_true, false_iff]
          exact firstFit_some_within_bounds cfg hp
    · rw [if_neg hT, if_neg hT]
      by_cases hC : resolveCuesPos cfg o ≠ ElementPosition.afterData ∧ cuesFlipAllowed cfg o
      · rw [if_pos hC, if_pos hC]
        rcases hf1 : o.fit (resolveTagPos cfg o) ElementPosition.afterData with _ | p1
        · rw [show (3 : Nat) = 2 + 1 from rfl, calculateSegmentData_fit_none cfg o 2 _ _ hf1]
          rw [if_neg hT, if_neg (by simp)]
          rw [show (2 : Nat) = 1 + 1 from rfl, calculateSegmentData_req_true]
          simp [MakeDecision.isRewrite, firstFitAux, hf1]
        · rw [show (3 : Nat) = 2 + 1 from rfl,
            calculateSegmentData_fit_some cfg o 2 _ _ _ hf1]
          simp only [firstFitAux, hf1]
          by_cases hp : p1 > cfg.maxPadding ∨ p1 < cfg.minPadding
          · rw [if_pos hp, show (2 : Nat) = 1 + 1 from rfl, calculateSegmentData_req_true]
            simp only [MakeDecision.isRewrite, true_iff]
            exact Or.inr ⟨_, _, _, rfl, hp⟩
          · rw [if_neg hp]
            simp only [MakeDecision.isRewrite, Bool.false_eq_true, false_iff]
            exact firstFit_some_within_bounds cfg hp
      · rw [if_neg hC, if_neg hC]
        rw [show (3 : Nat) = 2 + 1 from rfl, calculateSegmentData_req_true]
        simp [MakeDecision.isRewrite, firstFitAux]
  · rw [calculateSegmentData_fit_some cfg o 3 _ _ _ hf0]
    simp only [firstFitAux, hf0]
    by_cases hp : p0 > cfg.maxPadding ∨ p0 < cfg.minPadding
    · rw [if_pos hp, show (3 : Nat) = 2 + 1 from rfl, calculateSegmentData_req_true]
      simp only [MakeDecision.isRewrite, true_iff]
      exact Or.inr ⟨_, _, _, rfl, hp⟩
    · rw [if_neg hp]
      simp only [MakeDecision.isRewrite, Bool.false_eq_true, false_iff]
      exact firstFit_some_within_bounds cfg hp

/-- C5: refuted of the code as stated — the padding-equals-1 trigger is
not implemented for the round that computes the padding.  The claim
(and the code's own comment at line 1179, which notes that a Void
element is at least 2 bytes long, so a 1-byte padding cannot be
encoded) requires a full rewrite whenever a segment's computed padding
equals 1, but the test at line 1178 examines the STALE previous-round
segment.newPadding (0 for a freshly constructed SegmentData) before the
assignment at line 1180 stores the freshly computed value.  Concretely:
with stored previous value 0, a first cluster at offset 100 and
recomputed metadata ending at offset 99, paddingCheck accepts the
layout with computed padding exactly 1 and reports no rewrite; and with
a fit oracle reporting that accepted padding of 1, an unforced
configuration with no save path and padding bounds [0, 100] is decided
as an in-place modification with padding 1, not as a rewrite. -/
theorem first_pass_padding_one_accepted :
    paddingCheck 0 100 99 0 = (false, 1, 1) ∧
    (internalMakeFileDecision
      (MakeCfg.mk false false ElementPosition.beforeData ElementPosition.beforeData
        false false 0 100)
      (LayoutOracle.mk ElementPosition.beforeData ElementPosition.beforeData
        (fun _ _ => some 1))).isRewrite = false := by
  decide

/-- C6: when the layout does not fit and a rewrite was not forced, the
planner first moves the tags to AfterData (only when the tag position is
not already AfterData and the caller did not pin it), restarting the
Phase B round; only when that flip is not possible does it move the cues
to AfterData under the analogous condition, again restarting the round;
and when neither flip applies the round restarts with rewriteRequired
set, which yields a full rewrite. -/
theorem rewrite_avoidance_flip_order (cfg : MakeCfg) (o : LayoutOracle)
    (hforce : cfg.forceRewrite = false) (hsave : cfg.savePathSet = false)
    (hfit : o.fit (resolveTagPos cfg o) (resolveCuesPos cfg o) = none) :
    (resolveTagPos cfg o ≠ ElementPosition.afterData ∧ tagFlipAllowed cfg o →
      internalMakeFileDecision cfg o =
        calculateSegmentData cfg o 3 ElementPosition.afterData (resolveCuesPos cfg o) false) ∧
    (¬(resolveTagPos cfg o ≠ ElementPosition.afterData ∧ tagFlipAllowed cfg o) →
      resolveCuesPos cfg o ≠ ElementPosition.afterData ∧ cuesFlipAllowed cfg o →
      internalMakeFileDecision cfg o =
        calculateSegmentData cfg o 3 (resolveTagPos cfg o) ElementPosition.afterData false) ∧
    (¬(resolveTagPos cfg o ≠ ElementPosition.afterData ∧ tagFlipAllowed cfg o) →
      ¬(resolveCuesPos cfg o ≠ ElementPosition.afterData ∧ cuesFlipAllowed cfg o) →
      internalMakeFileDecision cfg o =
        MakeDecision.rewrite (resolveTagPos cfg o) (resolveCuesPos cfg o)) := by
  have hb : (cfg.forceRewrite || cfg.savePathSet) = false := by simp [hforce, hsave]
  refine ⟨fun hT => ?_, fun hT hC => ?_, fun hT hC => ?_⟩
  · unfold internalMakeFileDecision
    rw [hb, show (4 : Nat) = 3 + 1 from rfl, calculateSegmentData_fit_none cfg o 3 _ _ hfit,
      if_pos hT]
  · unfold internalMakeFileDecision
    rw [hb, show (4 : Nat) = 3 + 1 from rfl, calculateSegmentData_fit_none cfg o 3 _ _ hfit,
      if_neg hT, if_pos hC]
  · unfold internalMakeFileDecision
    rw [hb, show (4 : Nat) = 3 + 1 from rfl, calculateSegmentData_fit_none cfg o 3 _ _ hfit,
      if_neg hT, if_neg hC, show (3 : Nat) = 2 + 1 from rfl, calculateSegmentData_req_true]

/-- Witness for C6 at a concrete configuration whose initial layout
does not fit but fits once the tags move to AfterData. -/
theorem rewrite_avoidance_flip_order_witness :
    internalMakeFileDecision
        (MakeCfg.mk false false ElementPosition.beforeData ElementPosition.beforeData
          false false 0 1000)
        (LayoutOracle.mk ElementPosition.beforeData ElementPosition.beforeData
          (fun t _ => if t = ElementPosition.afterData then some 50 else none)) =
      calculateSegmentData
        (MakeCfg.mk false false ElementPosition.beforeData ElementPosition.beforeData
          false false 0 1000)
        (LayoutOracle.mk ElementPosition.beforeData ElementPosition.beforeData
          (fun t _ => if t = ElementPosition.afterData then some 50 else none))
        3 ElementPosition.afterData ElementPosition.beforeData false :=
  (rewrite_avoidance_flip_order _ _ rfl rfl (by decide)).1 (by decide)

/-- Helper: an xor of two values below a power of two stays below it. -/
theorem natXor_lt_two_pow {x y n : Nat} (hx : x < 2 ^ n) (hy : y < 2 ^ n) :
    Nat.xor x y < 2 ^ n :=
  Nat.bitwise_lt hx hy

/-- Helper: a little-endian store only modifies its four positions. -/
theorem storeLE32_outside (out : ByteStore) (pos value i : Nat)
    (h : i < pos ∨ pos + 3 < i) : storeLE32 out pos value i = out i := by
  unfold storeLE32
  rw [if_neg (by omega), if_neg (by omega), if_neg (by omega), if_neg (by omega)]

/-- Helper: the four bytes written by a little-endian store. -/
theorem storeLE32_at (out : ByteStore) (pos value : Nat) :
    storeLE32 out pos value pos = value % 256 ∧
    storeLE32 out pos value (pos + 1) = (value >>> 8) % 256 ∧
    storeLE32 out pos value (pos + 2) = (value >>> 16) % 256 ∧
    storeLE32 out pos value (pos + 3) = (value >>> 24) % 256 := by
  unfold storeLE32
  refine ⟨?_, ?_, ?_, ?_⟩
  · rw [if_pos rfl]
  · rw [if_neg (by omega), if_pos rfl]
  · rw [if_neg (by omega), if_neg (by omega), if_pos rfl]
  · rw [if_neg (by omega), if_neg (by omega), if_neg (by omega), if_pos rfl]

/-- Helper: a little-endian read only looks at its four positions. -/
theorem readLE32_congr (o1 o2 : ByteStore) (pos : Nat)
    (h : ∀ j, pos ≤ j → j ≤ pos + 3 → o1 j = o2 j) :
    readLE32 o1 pos = readLE32 o2 pos := by
  unfold readLE32
  rw [h pos (by omega) (by omega), h (pos + 1) (by omega) (by omega),
    h (pos + 2) (by omega) (by omega), h (pos + 3) (by omega) (by omega)]

/-- Helper: a little-endian read recovers a stored 32-bit value. -/
theorem readLE32_storeLE32 (out : ByteStore) (pos value : Nat)
    (h : value < 2 ^ 32) :
    readLE32 (storeLE32 out pos value) pos = value := by
  obtain ⟨h0, h1, h2, h3⟩ := storeLE32_at out pos value
  unfold readLE32
  rw [h0, h1, h2, h3]
  simp only [Nat.shiftRight_eq_div_pow]
  norm_num
  omega

/-- Helper: one CRC-32 bit step stays below 2 ^ 32. -/
theorem crc32Step_lt (crc : Nat) (h : crc < 2 ^ 32) : crc32Step crc < 2 ^ 32 := by
  unfold crc32Step
  split
  · exact natXor_lt_two_pow (by omega) (by norm_num)
  · omega

/-- Helper: iterating the CRC-32 bit step stays below 2 ^ 32. -/
theorem crc32Step_iter_lt (n crc : Nat) (h : crc < 2 ^ 32) :
    crc32Step^[n] crc < 2 ^ 32 := by
  induction n generalizing crc with
  | zero => simpa using h
  | succ k ih =>
    rw [Function.iterate_succ_apply]
    exact ih _ (crc32Step_lt _ h)

/-- Helper: folding one byte into the CRC stays below 2 ^ 32. -/
theorem crc32UpdateByte_lt (crc b : Nat) (h : crc < 2 ^ 32) :
    crc32UpdateByte crc b < 2 ^ 32 := by
  unfold crc32UpdateByte
  exact crc32Step_iter_lt _ _ (natXor_lt_two_pow h (by have := Nat.mod_lt b (y := 256) (by omega); norm_num; omega))

/-- Helper: folding any byte list into the CRC stays below 2 ^ 32. -/
theorem crc32_foldl_lt (bytes : List Nat) (acc : Nat) (h : acc < 2 ^ 32) :
    bytes.foldl crc32UpdateByte acc < 2 ^ 32 := by
  induction bytes generalizing acc with
  | nil => simpa using h
  | cons b rest ih =>
    rw [List.foldl_cons]
    exact ih _ (crc32UpdateByte_lt _ _ h)

/-- Helper: the CRC-32 of any byte list is a 32-bit value. -/
theorem crc32_lt (bytes : List Nat) : crc32 bytes < 2 ^ 32 := by
  unfold crc32
  exact natXor_lt_two_pow (crc32_foldl_lt _ _ (by norm_num)) (by norm_num)

/-- Helper: a byte range read only looks at its positions. -/
theorem extractRange_congr (o1 o2 : ByteStore) (start len : Nat)
    (h : ∀ j, start ≤ j → j < start + len → o1 j = o2 j) :
    extractRange o1 start len = extractRange o2 start len := by
  unfold extractRange
  apply List.map_congr_left
  intro i hi
  rw [List.mem_range] at hi
  exact h (start + i) (by omega) (by omega)

/-- Helper: a position outside every patched window is untouched by the
backpatch pass. -/
theorem applyCrc32Patches_outside (patches : List (Nat × Nat)) (out : ByteStore) (q : Nat)
    (h : ∀ p ∈ patches, q < p.1 + 2 ∨ p.1 + 5 < q) :
    applyCrc32Patches out patches q = out q := by
  induction patches generalizing out with
  | nil => rfl
  | cons p rest ih =>
    rw [show applyCrc32Patches out (p :: rest) =
      applyCrc32Patches (applyCrc32Patch out p) rest from rfl]
    rw [ih (applyCrc32Patch out p) (fun p2 hp2 => h p2 (List.mem_cons_of_mem _ hp2))]
    unfold applyCrc32Patch
    apply storeLE32_outside
    have := h p (List.mem_cons_self _ _)
    omega

/-- Helper: after the backpatch pass over pairwise disjoint regions,
every patched window holds the CRC-32 of its own byte range in the
final store. -/
theorem applyCrc32Patches_value (patches : List (Nat × Nat)) (out : ByteStore)
    (hdisj : patches.Pairwise (fun p q => p.1 + p.2 ≤ q.1 ∨ q.1 + q.2 ≤ p.1))
    (hsize : ∀ p ∈ patches, 6 ≤ p.2) :
    ∀ p ∈ patches,
      readLE32 (applyCrc32Patches out patches) (p.1 + 2) =
        crc32 (extractRange (applyCrc32Patches out patches) (p.1 + 6) (p.2 - 6)) := by
  induction patches generalizing out with
  | nil =>
    intro p hp
    cases hp
  | cons p0 rest ih =>
    obtain ⟨hp0rest, hrest⟩ := List.pairwise_cons.mp hdisj
    intro p hp
    rcases List.mem_cons.mp hp with rfl | hmem
    · have hs0 : 6 ≤ p.2 := hsize p (List.mem_cons_self _ _)
      rw [show applyCrc32Patches out (p :: rest) =
        applyCrc32Patches (applyCrc32Patch out p) rest from rfl]
      have hread : readLE32 (applyCrc32Patches (applyCrc32Patch out p) rest) (p.1 + 2) =
          readLE32 (applyCrc32Patch out p) (p.1 + 2) := by
        apply readLE32_congr
        intro j hj1 hj2
        apply applyCrc32Patches_outside
        intro q hq
        have hd := hp0rest q hq
        have hsq := hsize q (List.mem_cons_of_mem _ hq)
        omega
      have hrange : extractRange (applyCrc32Patches (applyCrc32Patch out p) rest)
          (p.1 + 6) (p.2 - 6) =
          extractRange (applyCrc32Patch out p) (p.1 + 6) (p.2 - 6) := by
        apply extractRange_congr
        intro j hj1 hj2
        apply applyCrc32Patches_outside
        intro q hq
        have hd := hp0rest q hq
        have hsq := hsize q (List.mem_cons_of_mem _ hq)
        omega
      rw [hread, hrange]
      have hrange2 : extractRange (applyCrc32Patch out p) (p.1 + 6) (p.2 - 6) =
          extractRange out (p.1 + 6) (p.2 - 6) := by
        apply extractRange_congr
        intro j hj1 hj2
        unfold applyCrc32Patch
        apply storeLE32_outside
        omega
      rw [hrange2]
      unfold applyCrc32Patch
      exact readLE32_storeLE32 _ _ _ (crc32_lt _)
    · exact ih (applyCrc32Patch out p0) hrest
        (fun q hq => hsize q (List.mem_cons_of_mem _ hq)) p hmem

/-- C3: a CRC-32 placeholder is written exactly for the segments whose
original first child was a CRC-32 element (crc32Offsets records the
segment data offset and total data size for those segments); after the
backpatch pass the 32-bit value stored little endian at the placeholder
equals the IEEE CRC-32 of the bytes from just after the 6-byte CRC-32
element through the end of the enclosing segment data, provided the
segment regions are pairwise disjoint as they are in a written file. -/
theorem crc32_backpatch_value (segs : List CrcSegment) (out : ByteStore)
    (hdisj : (crc32Offsets segs).Pairwise (fun p q => p.1 + p.2 ≤ q.1 ∨ q.1 + q.2 ≤ p.1))
    (hsize : ∀ s ∈ segs, s.hasCrc32 = true → 6 ≤ s.totalDataSize) :
    ∀ s ∈ segs, s.hasCrc32 = true →
      readLE32 (applyCrc32Patches out (crc32Offsets segs)) (s.newDataOffset + 2) =
        crc32 (extractRange (applyCrc32Patches out (crc32Offsets segs))
          (s.newDataOffset + 6) (s.totalDataSize - 6)) := by
  intro s hs hcrc
  have hmem : (s.newDataOffset, s.totalDataSize) ∈ crc32Offsets segs := by
    unfold crc32Offsets
    exact List.mem_map.mpr ⟨s, List.mem_filter.mpr ⟨hs, hcrc⟩, rfl⟩
  have hsizes : ∀ p ∈ crc32Offsets segs, 6 ≤ p.2 := by
    intro p hp
    unfold crc32Offsets at hp
    obtain ⟨s2, hs2, rfl⟩ := List.mem_map.mp hp
    obtain ⟨hs2m, hs2c⟩ := List.mem_filter.mp hs2
    exact hsize s2 hs2m hs2c
  exact applyCrc32Patches_value _ out hdisj hsizes _ hmem

/-- Witness for C3: one segment with a CRC-32 placeholder at data
offset 0 and eight data bytes, over a constant original store. -/
theorem crc32_backpatch_value_witness :
    readLE32 (applyCrc32Patches (fun _ => 7) (crc32Offsets [CrcSegment.mk true 0 8]))
        ((CrcSegment.mk true 0 8).newDataOffset + 2) =
      crc32 (extractRange (applyCrc32Patches (fun _ => 7)
          (crc32Offsets [CrcSegment.mk true 0 8]))
        ((CrcSegment.mk true 0 8).newDataOffset + 6)
        ((CrcSegment.mk true 0 8).totalDataSize - 6)) :=
  crc32_backpatch_value _ _ (by simp [crc32Offsets]) (by decide)
    (CrcSegment.mk true 0 8) (List.mem_singleton.mpr rfl) rfl

set_option maxHeartbeats 1000000 in
/-- Helper: the encoded length of an unsigned integer is monotone. -/
theorem calculateUIntegerLength_mono {u v : Nat} (h : u ≤ v) :
    calculateUIntegerLength u ≤ calculateUIntegerLength v := by
  unfold calculateUIntegerLength
  split_ifs <;> omega

/-- Helper: the encoded length of an unsigned integer is at most 8. -/
theorem calculateUIntegerLength_le_eight (v : Nat) : calculateUIntegerLength v ≤ 8 := by
  unfold calculateUIntegerLength
  split_ifs <;> omega

/-- Helper: a Seek entry size is monotone in the stored offset. -/
theorem seekEntrySize_mono {u v : Nat} (h : u ≤ v) : seekEntrySize u ≤ seekEntrySize v := by
  unfold seekEntrySize
  have := calculateUIntegerLength_mono h
  omega

/-- Helper: a Seek entry size is at most 20 bytes. -/
theorem seekEntrySize_le (v : Nat) : seekEntrySize v ≤ 20 := by
  unfold seekEntrySize
  have := calculateUIntegerLength_le_eight v
  omega

/-- Helper: a cue entry size is monotone in the stored offset. -/
theorem cueEntrySize_mono {u v : Nat} (h : u ≤ v) : cueEntrySize u ≤ cueEntrySize v := by
  unfold cueEntrySize
  have := calculateUIntegerLength_mono h
  omega

/-- Helper: a cue entry size is at most 20 bytes. -/
theorem cueEntrySize_le (v : Nat) : cueEntrySize v ≤ 20 := by
  unfold cueEntrySize
  have := calculateUIntegerLength_le_eight v
  omega

/-- Helper: replacing or inserting an entry whose previous values were
at most the new value does not shrink a monotone size sum. -/
theorem setEntry_sum_ge {κ : Type} [DecidableEq κ] (f : Nat → Nat)
    (hf : ∀ u v, u ≤ v → f u ≤ f v) (l : List (κ × Nat)) (k : κ) (T : Nat)
    (hv : ∀ v, (k, v) ∈ l → v ≤ T) :
    (l.map (fun e => f e.2)).sum ≤ ((setEntry l k T).map (fun e => f e.2)).sum := by
  induction l with
  | nil => simp [setEntry]
  | cons e rest ih =>
    by_cases he : e.1 = k
    · rw [show setEntry (e :: rest) k T = (k, T) :: rest from by simp [setEntry, he]]
      simp only [List.map_cons, List.sum_cons]
      have hmem : (k, e.2) ∈ e :: rest := by
        rw [← he]
        simp
      have := hf e.2 T (hv e.2 hmem)
      omega
    · rw [show setEntry (e :: rest) k T = e :: setEntry rest k T from by simp [setEntry, he]]
      simp only [List.map_cons, List.sum_cons]
      have := ih (fun v hv2 => hv v (List.mem_cons_of_mem _ hv2))
      omega

/-- Helper: the keys after an insert-or-update. -/
theorem setEntry_keys {κ : Type} [DecidableEq κ] (l : List (κ × Nat)) (k : κ) (T : Nat) :
    (setEntry l k T).map Prod.fst =
      if k ∈ l.map Prod.fst then l.map Prod.fst else l.map Prod.fst ++ [k] := by
  induction l with
  | nil => simp [setEntry]
  | cons e rest ih =>
    by_cases he : e.1 = k
    · rw [show setEntry (e :: rest) k T = (k, T) :: rest from by simp [setEntry, he]]
      simp [he]
    · rw [show setEntry (e :: rest) k T = e :: setEntry rest k T from by simp [setEntry, he]]
      simp only [List.map_cons, ih]
      by_cases hk : k ∈ rest.map Prod.fst
      · rw [if_pos hk, if_pos (by simp [hk])]
      · rw [if_neg hk,
          if_neg (by simp only [List.mem_cons, hk, or_false]; exact fun h2 => he h2.symm)]
        simp

/-- Helper: membership after an insert-or-update with unique keys. -/
theorem mem_setEntry {κ : Type} [DecidableEq κ] (l : List (κ × Nat)) (k : κ) (T : Nat)
    (hnd : (l.map Prod.fst).Nodup) (k2 : κ) (v : Nat)
    (h : (k2, v) ∈ setEntry l k T) :
    (k2 = k ∧ v = T) ∨ (k2 ≠ k ∧ (k2, v) ∈ l) := by
  induction l with
  | nil =>
    simp [setEntry] at h
    exact Or.inl h
  | cons e rest ih =>
    simp only [List.map_cons, List.nodup_cons] at hnd
    by_cases he : e.1 = k
    · rw [show setEntry (e :: rest) k T = (k, T) :: rest from by simp [setEntry, he]] at h
      rcases List.mem_cons.mp h with heq | hmem
      · obtain ⟨h1, h2⟩ := Prod.ext_iff.mp heq
        exact Or.inl ⟨h1, h2⟩
      · right
        constructor
        · intro hk2
          apply hnd.1
          rw [he, ← hk2]
          exact List.mem_map.mpr ⟨(k2, v), hmem, rfl⟩
        · exact List.mem_cons_of_mem _ hmem
    · rw [show setEntry (e :: rest) k T = e :: setEntry rest k T from by simp [setEntry, he]] at h
      rcases List.mem_cons.mp h with heq | hmem
      · right
        have h1 : k2 = e.1 := congrArg Prod.fst heq
        refine ⟨fun hk2 => he (h1.symm.trans hk2), List.mem_cons.mpr (Or.inl heq)⟩
      · rcases ih hnd.2 hmem with h1 | ⟨h1, h2⟩
        · exact Or.inl h1
        · exact Or.inr ⟨h1, List.mem_cons_of_mem _ h2⟩

/-- Helper: a size sum over entries is bounded by 20 per entry. -/
theorem map_sum_le_twenty {κ : Type} (f : Nat → Nat) (hf : ∀ v, f v ≤ 20)
    (l : List (κ × Nat)) :
    (l.map (fun e => f e.2)).sum ≤ 20 * l.length := by
  induction l with
  | nil => simp
  | cons e rest ih =>
    simp only [List.map_cons, List.sum_cons, List.length_cons]
    have := hf e.2
    omega

/-- Helper: the target search for a SeekHead key is monotone in the
running total and in the Cues size. -/
theorem seekTargetAux_mono (cp : Nat) (cs cs2 : Nat) (k : Nat × Nat)
    (hcue : cs ≤ cs2) :
    ∀ (total total2 : Nat) (rest : List PlanStep) (T : Nat),
      total ≤ total2 →
      seekTargetAux cp cs k total rest = some T →
      ∃ T2, seekTargetAux cp cs2 k total2 rest = some T2 ∧ T ≤ T2 := by
  intro total total2 rest
  induction rest generalizing total total2 with
  | nil =>
    intro T _ h
    simp [seekTargetAux] at h
  | cons step rest2 ih =>
    intro T hle h
    cases step with
    | add c =>
      simp only [seekTargetAux] at h ⊢
      exact ih _ _ T (by omega) h
    | addCuesSize =>
      simp only [seekTargetAux] at h ⊢
      exact ih _ _ T (by omega) h
    | seekPush key =>
      simp only [seekTargetAux] at h ⊢
      by_cases hk : key = k
      · rw [if_pos hk] at h ⊢
        injection h with h2
        exact ⟨cp + total2, rfl, by omega⟩
      · rw [if_neg hk] at h ⊢
        exact ih _ _ T hle h
    | seekPushConst key off =>
      simp only [seekTargetAux] at h ⊢
      by_cases hk : key = k
      · rw [if_pos hk] at h ⊢
        injection h with h2
        exact ⟨off, rfl, by omega⟩
      · rw [if_neg hk] at h ⊢
        exact ih _ _ T hle h
    | cuesUpdate key =>
      simp only [seekTargetAux] at h ⊢
      exact ih _ _ T hle h
    | cuesUpdateConst key off =>
      simp only [seekTargetAux] at h ⊢
      exact ih _ _ T hle h

/-- Helper: the target search for a cue key is monotone in the running
total and in the Cues size. -/
theorem cueTargetAux_mono (cp : Nat) (cs cs2 : Nat) (k : Nat)
    (hcue : cs ≤ cs2) :
    ∀ (total total2 : Nat) (rest : List PlanStep) (T : Nat),
      total ≤ total2 →
      cueTargetAux cp cs k total rest = some T →
      ∃ T2, cueTargetAux cp cs2 k total2 rest = some T2 ∧ T ≤ T2 := by
  intro total total2 rest
  induction rest generalizing total total2 with
  | nil =>
    intro T _ h
    simp [cueTargetAux] at h
  | cons step rest2 ih =>
    intro T hle h
    cases step with
    | add c =>
      simp only [cueTargetAux] at h ⊢
      exact ih _ _ T (by omega) h
    | addCuesSize =>
      simp only [cueTargetAux] at h ⊢
      exact ih _ _ T (by omega) h
    | seekPush key =>
      simp only [cueTargetAux] at h ⊢
      exact ih _ _ T hle h
    | seekPushConst key off =>
      simp only [cueTargetAux] at h ⊢
      exact ih _ _ T hle h
    | cuesUpdate key =>
      simp only [cueTargetAux] at h ⊢
      by_cases hk : key = k
      · rw [if_pos hk] at h ⊢
        injection h with h2
        exact ⟨cp + total2, rfl, by omega⟩
      · rw [if_neg hk] at h ⊢
        exact ih _ _ T hle h
    | cuesUpdateConst key off =>
      simp only [cueTargetAux] at h ⊢
      by_cases hk : key = k
      · rw [if_pos hk] at h ⊢
        injection h with h2
        exact ⟨off, rfl, by omega⟩
      · rw [if_neg hk] at h ⊢
        exact ih _ _ T hle h

/-- Helper: a found SeekHead target means the key is pushed by some
step. -/
theorem seekTargetAux_mem (cp cs : Nat) (k : Nat × Nat) :
    ∀ (total : Nat) (rest : List PlanStep) (T : Nat),
      seekTargetAux cp cs k total rest = some T → k ∈ seekStepKeys rest := by
  intro total rest
  induction rest generalizing total with
  | nil =>
    intro T h
    simp [seekTargetAux] at h
  | cons step rest2 ih =>
    intro T h
    cases step with
    | add c =>
      simp only [seekTargetAux] at h
      simpa [seekStepKeys, seekStepKey] using ih _ _ h
    | addCuesSize =>
      simp only [seekTargetAux] at h
      simpa [seekStepKeys, seekStepKey] using ih _ _ h
    | seekPush key =>
      simp only [seekTargetAux] at h
      by_cases hk : key = k
      · simp [seekStepKeys, seekStepKey, hk]
      · rw [if_neg hk] at h
        simpa [seekStepKeys, seekStepKey] using List.mem_cons_of_mem key (ih _ _ h)
    | seekPushConst key off =>
      simp only [seekTargetAux] at h
      by_cases hk : key = k
      · simp [seekStepKeys, seekStepKey, hk]
      · rw [if_neg hk] at h
        simpa [seekStepKeys, seekStepKey] using List.mem_cons_of_mem key (ih _ _ h)
    | cuesUpdate key =>
      simp only [seekTargetAux] at h
      simpa [seekStepKeys, seekStepKey] using ih _ _ h
    | cuesUpdateConst key off =>
      simp only [seekTargetAux] at h
      simpa [seekStepKeys, seekStepKey] using ih _ _ h

/-- Helper: a found cue target means the key is updated by some step. -/
theorem cueTargetAux_mem (cp cs : Nat) (k : Nat) :
    ∀ (total : Nat) (rest : List PlanStep) (T : Nat),
      cueTargetAux cp cs k total rest = some T → k ∈ cueStepKeys rest := by
  intro total rest
  induction rest generalizing total with
  | nil =>
    intro T h
    simp [cueTargetAux] at h
  | cons step rest2 ih =>
    intro T h
    cases step with
    | add c =>
      simp only [cueTargetAux] at h
      simpa [cueStepKeys, cueStepKey] using ih _ _ h
    | addCuesSize =>
      simp only [cueTargetAux] at h
      simpa [cueStepKeys, cueStepKey] using ih _ _ h
    | seekPush key =>
      simp only [cueTargetAux] at h
      simpa [cueStepKeys, cueStepKey] using ih _ _ h
    | seekPushConst key off =>
      simp only [cueTargetAux] at h
      simpa [cueStepKeys, cueStepKey] using ih _ _ h
    | cuesUpdate key =>
      simp only [cueTargetAux] at h
      by_cases hk : key = k
      · simp [cueStepKeys, cueStepKey, hk]
      · rw [if_neg hk] at h
        simpa [cueStepKeys, cueStepKey] using List.mem_cons_of_mem key (ih _ _ h)
    | cuesUpdateConst key off =>
      simp only [cueTargetAux] at h
      by_cases hk : key = k
      · simp [cueStepKeys, cueStepKey, hk]
      · rw [if_neg hk] at h
        simpa [cueStepKeys, cueStepKey] using List.mem_cons_of_mem key (ih _ _ h)

/-- Helper: the full-pass SeekHead target is monotone in the component
sizes of the state. -/
theorem seekTarget_mono (cp crc : Nat) (S : List PlanStep) (st st2 : PlanState)
    (k : Nat × Nat) (T : Nat)
    (hseek : seekInfoActualSize st.seekEntries ≤ seekInfoActualSize st2.seekEntries)
    (hcue : cuesTotalSize st.cueEntries ≤ cuesTotalSize st2.cueEntries)
    (h : seekTarget cp crc S st k = some T) :
    ∃ T2, seekTarget cp crc S st2 k = some T2 ∧ T ≤ T2 :=
  seekTargetAux_mono cp _ _ k hcue _ _ S T (by omega) h

/-- Helper: the full-pass cue target is monotone in the component sizes
of the state. -/
theorem cueTarget_mono (cp crc : Nat) (S : List PlanStep) (st st2 : PlanState)
    (k : Nat) (T : Nat)
    (hseek : seekInfoActualSize st.seekEntries ≤ seekInfoActualSize st2.seekEntries)
    (hcue : cuesTotalSize st.cueEntries ≤ cuesTotalSize st2.cueEntries)
    (h : cueTarget cp crc S st k = some T) :
    ∃ T2, cueTarget cp crc S st2 k = some T2 ∧ T ≤ T2 :=
  cueTargetAux_mono cp _ _ k hcue _ _ S T (by omega) h

/-- Helper: pushing the pass offset for a SeekHead key preserves the
invariant and does not shrink the SeekHead size. -/
theorem planInv_seekUpdate (cp crc : Nat) (S : List PlanStep) (st : PlanState)
    (key : Nat × Nat) (T : Nat)
    (hInv : PlanInv cp crc S st)
    (hkeyS : key ∈ seekStepKeys S)
    (hT : seekTarget cp crc S st key = some T) :
    seekInfoActualSize st.seekEntries ≤
      seekInfoActualSize (setEntry st.seekEntries key T) ∧
    PlanInv cp crc S ⟨setEntry st.seekEntries key T, st.cueEntries⟩ := by
  have hv : ∀ v, (key, v) ∈ st.seekEntries → v ≤ T := by
    intro v hvmem
    obtain ⟨t, ht, hle⟩ := hInv.seekLe key v hvmem
    rw [hT] at ht
    injection ht with ht2
    omega
  have hge : seekInfoActualSize st.seekEntries ≤
      seekInfoActualSize (setEntry st.seekEntries key T) := by
    unfold seekInfoActualSize
    have := setEntry_sum_ge seekEntrySize (fun u v h => seekEntrySize_mono h)
      st.seekEntries key T hv
    omega
  refine ⟨hge, ?_⟩
  constructor
  · show ((setEntry st.seekEntries key T).map Prod.fst).Nodup
    rw [setEntry_keys]
    by_cases hk : key ∈ st.seekEntries.map Prod.fst
    · rw [if_pos hk]
      exact hInv.seekNodup
    · rw [if_neg hk]
      exact hInv.seekNodup.append (List.nodup_singleton key)
        (by simpa [List.disjoint_singleton] using hk)
  · exact hInv.cueNodup
  · intro k2 hk2
    rw [show (⟨setEntry st.seekEntries key T, st.cueEntries⟩ : PlanState).seekEntries =
      setEntry st.seekEntries key T from rfl, setEntry_keys] at hk2
    by_cases hk : key ∈ st.seekEntries.map Prod.fst
    · rw [if_pos hk] at hk2
      exact hInv.seekKeysSub k2 hk2
    · rw [if_neg hk] at hk2
      rcases List.mem_append.mp hk2 with h1 | h1
      · exact hInv.seekKeysSub k2 h1
      · have : k2 = key := by simpa using h1
        subst this
        exact hkeyS
  · exact hInv.cueKeysSub
  · intro k2 off hmem
    rcases mem_setEntry st.seekEntries key T hInv.seekNodup k2 off hmem with
      ⟨h1, h2⟩ | ⟨hne, hold⟩
    · subst h1
      subst h2
      exact seekTarget_mono cp crc S st
        ⟨setEntry st.seekEntries k2 off, st.cueEntries⟩ k2 off hge (le_refl _) hT
    · obtain ⟨t, ht, hle⟩ := hInv.seekLe k2 off hold
      obtain ⟨t2, ht2, hle2⟩ := seekTarget_mono cp crc S st
        ⟨setEntry st.seekEntries key T, st.cueEntries⟩ k2 t hge (le_refl _) ht
      exact ⟨t2, ht2, by omega⟩
  · intro k2 off hmem
    obtain ⟨t, ht, hle⟩ := hInv.cueLe k2 off hmem
    obtain ⟨t2, ht2, hle2⟩ := cueTarget_mono cp crc S st
      ⟨setEntry st.seekEntries key T, st.cueEntries⟩ k2 t hge (le_refl _) ht
    exact ⟨t2, ht2, by omega⟩

/-- Helper: pushing the pass offset for a cue key preserves the
invariant and does not shrink the Cues size. -/
theorem planInv_cueUpdate (cp crc : Nat) (S : List PlanStep) (st : PlanState)
    (key : Nat) (T : Nat)
    (hInv : PlanInv cp crc S st)
    (hkeyS : key ∈ cueStepKeys S)
    (hT : cueTarget cp crc S st key = some T) :
    cuesTotalSize st.cueEntries ≤
      cuesTotalSize (setEntry st.cueEntries key T) ∧
    PlanInv cp crc S ⟨st.seekEntries, setEntry st.cueEntries key T⟩ := by
  have hv : ∀ v, (key, v) ∈ st.cueEntries → v ≤ T := by
    intro v hvmem
    obtain ⟨t, ht, hle⟩ := hInv.cueLe key v hvmem
    rw [hT] at ht
    injection ht with ht2
    omega
  have hge : cuesTotalSize st.cueEntries ≤
      cuesTotalSize (setEntry st.cueEntries key T) := by
    unfold cuesTotalSize
    have := setEntry_sum_ge cueEntrySize (fun u v h => cueEntrySize_mono h)
      st.cueEntries key T hv
    omega
  refine ⟨hge, ?_⟩
  constructor
  · exact hInv.seekNodup
  · show ((setEntry st.cueEntries key T).map Prod.fst).Nodup
    rw [setEntry_keys]
    by_cases hk : key ∈ st.cueEntries.map Prod.fst
    · rw [if_pos hk]
      exact hInv.cueNodup
    · rw [if_neg hk]
      exact hInv.cueNodup.append (List.nodup_singleton key)
        (by simpa [List.disjoint_singleton] using hk)
  · exact hInv.seekKeysSub
  · intro k2 hk2
    rw [show (⟨st.seekEntries, setEntry st.cueEntries key T⟩ : PlanState).cueEntries =
      setEntry st.cueEntries key T from rfl, setEntry_keys] at hk2
    by_cases hk : key ∈ st.cueEntries.map Prod.fst
    · rw [if_pos hk] at hk2
      exact hInv.cueKeysSub k2 hk2
    · rw [if_neg hk] at hk2
      rcases List.mem_append.mp hk2 with h1 | h1
      · exact hInv.cueKeysSub k2 h1
      · have : k2 = key := by simpa using h1
        subst this
        exact hkeyS
  · intro k2 off hmem
    obtain ⟨t, ht, hle⟩ := hInv.seekLe k2 off hmem
    obtain ⟨t2, ht2, hle2⟩ := seekTarget_mono cp crc S st
      ⟨st.seekEntries, setEntry st.cueEntries key T⟩ k2 t (le_refl _) hge ht
    exact ⟨t2, ht2, by omega⟩
  · intro k2 off hmem
    rcases mem_setEntry st.cueEntries key T hInv.cueNodup k2 off hmem with
      ⟨h1, h2⟩ | ⟨hne, hold⟩
    · subst h1
      subst h2
      exact cueTarget_mono cp crc S st
        ⟨st.seekEntries, setEntry st.cueEntries k2 off⟩ k2 off (le_refl _) hge hT
    · obtain ⟨t, ht, hle⟩ := hInv.cueLe k2 off hold
      obtain ⟨t2, ht2, hle2⟩ := cueTarget_mono cp crc S st
        ⟨st.seekEntries, setEntry st.cueEntries key T⟩ k2 t (le_refl _) hge ht
      exact ⟨t2, ht2, by omega⟩

/-- Helper: one pass of calculateSegmentSize preserves the invariant,
never shrinks the size measure, and strictly grows it whenever it
reports a restart. -/
theorem runPassAux_spec (cp crc : Nat) (S : List PlanStep) :
    ∀ (rest : List PlanStep) (st : PlanState) (total : Nat),
      PlanInv cp crc S st →
      (seekStepKeys rest).Nodup →
      (cueStepKeys rest).Nodup →
      (∀ k T, seekTargetAux cp (cuesTotalSize st.cueEntries) k total rest = some T →
        seekTarget cp crc S st k = some T) →
      (∀ k T, cueTargetAux cp (cuesTotalSize st.cueEntries) k total rest = some T →
        cueTarget cp crc S st k = some T) →
      (∀ k, k ∈ seekStepKeys rest → k ∈ seekStepKeys S) →
      (∀ k, k ∈ cueStepKeys rest → k ∈ cueStepKeys S) →
      PlanInv cp crc S (runPassAux cp st total rest).1 ∧
      planMeasure st ≤ planMeasure (runPassAux cp st total rest).1 ∧
      ((runPassAux cp st total rest).2 = none →
        planMeasure st < planMeasure (runPassAux cp st total rest).1) := by
  intro rest
  induction rest with
  | nil =>
    intro st total hInv _ _ _ _ _ _
    refine ⟨hInv, le_refl _, ?_⟩
    intro h
    simp [runPassAux] at h
  | cons step rest2 ih =>
    intro st total hInv hsn hcn hFs hFc hsubS hsubC
    cases step with
    | add c =>
      have hsn2 : (seekStepKeys rest2).Nodup := by
        simpa [seekStepKeys, seekStepKey] using hsn
      have hcn2 : (cueStepKeys rest2).Nodup := by
        simpa [cueStepKeys, cueStepKey] using hcn
      have hFs2 : ∀ k T,
          seekTargetAux cp (cuesTotalSize st.cueEntries) k (total + c) rest2 = some T →
          seekTarget cp crc S st k = some T := fun k T h => hFs k T h
      have hFc2 : ∀ k T,
          cueTargetAux cp (cuesTotalSize st.cueEntries) k (total + c) rest2 = some T →
          cueTarget cp crc S st k = some T := fun k T h => hFc k T h
      have hsubS2 : ∀ k, k ∈ seekStepKeys rest2 → k ∈ seekStepKeys S := fun k hk =>
        hsubS k (by simpa [seekStepKeys, seekStepKey] using hk)
      have hsubC2 : ∀ k, k ∈ cueStepKeys rest2 → k ∈ cueStepKeys S := fun k hk =>
        hsubC k (by simpa [cueStepKeys, cueStepKey] using hk)
      exact ih st (total + c) hInv hsn2 hcn2 hFs2 hFc2 hsubS2 hsubC2
    | addCuesSize =>
      have hsn2 : (seekStepKeys rest2).Nodup := by
        simpa [seekStepKeys, seekStepKey] using hsn
      have hcn2 : (cueStepKeys rest2).Nodup := by
        simpa [cueStepKeys, cueStepKey] using hcn
      have hFs2 : ∀ k T,
          seekTargetAux cp (cuesTotalSize st.cueEntries) k
            (total + cuesTotalSize st.cueEntries) rest2 = some T →
          seekTarget cp crc S st k = some T := fun k T h => hFs k T h
      have hFc2 : ∀ k T,
          cueTargetAux cp (cuesTotalSize st.cueEntries) k
            (total + cuesTotalSize st.cueEntries) rest2 = some T →
          cueTarget cp crc S st k = some T := fun k T h => hFc k T h
      have hsubS2 : ∀ k, k ∈ seekStepKeys rest2 → k ∈ seekStepKeys S := fun k hk =>
        hsubS k (by simpa [seekStepKeys, seekStepKey] using hk)
      have hsubC2 : ∀ k, k ∈ cueStepKeys rest2 → k ∈ cueStepKeys S := fun k hk =>
        hsubC k (by simpa [cueStepKeys, cueStepKey] using hk)
      exact ih st (total + cuesTotalSize st.cueEntries) hInv hsn2 hcn2 hFs2 hFc2 hsubS2 hsubC2
    | seekPush key =>
      have hkeys : seekStepKeys (PlanStep.seekPush key :: rest2) =
          key :: seekStepKeys rest2 := by
        simp [seekStepKeys, seekStepKey]
      rw [hkeys] at hsn
      obtain ⟨hkey_tail, hsn2⟩ := List.nodup_cons.mp hsn
      have hcn2 : (cueStepKeys rest2).Nodup := by
        simpa [cueStepKeys, cueStepKey] using hcn
      have hkeyS : key ∈ seekStepKeys S :=
        hsubS key (by simp [seekStepKeys, seekStepKey])
      have hT : seekTarget cp crc S st key = some (cp + total) :=
        hFs key (cp + total) (by simp [seekTargetAux])
      obtain ⟨hge, hInv2⟩ :=
        planInv_seekUpdate cp crc S st key (cp + total) hInv hkeyS hT
      have hsubS2 : ∀ k, k ∈ seekStepKeys rest2 → k ∈ seekStepKeys S := fun k hk =>
        hsubS k (by simp only [hkeys]; exact List.mem_cons_of_mem _ hk)
      have hsubC2 : ∀ k, k ∈ cueStepKeys rest2 → k ∈ cueStepKeys S := fun k hk =>
        hsubC k (by simpa [cueStepKeys, cueStepKey] using hk)
      simp only [runPassAux]
      by_cases heq : seekInfoActualSize (setEntry st.seekEntries key (cp + total)) =
          seekInfoActualSize st.seekEntries
      · rw [if_pos heq]
        have hFs2 : ∀ k T,
            seekTargetAux cp (cuesTotalSize st.cueEntries) k total rest2 = some T →
            seekTarget cp crc S
              (⟨setEntry st.seekEntries key (cp + total), st.cueEntries⟩ : PlanState) k =
              some T := by
          intro k T h
          have hkmem : k ∈ seekStepKeys rest2 := seekTargetAux_mem _ _ _ _ _ _ h
          have hkne : ¬ key = k := fun hkk => hkey_tail (hkk ▸ hkmem)
          have hS : seekTarget cp crc S st k = some T := by
            apply hFs k T
            simp only [seekTargetAux, if_neg hkne]
            exact h
          show seekTargetAux cp (cuesTotalSize st.cueEntries) k
            (crc + seekInfoActualSize (setEntry st.seekEntries key (cp + total))) S = some T
          rw [heq]
          exact hS
        have hFc2 : ∀ k T,
            cueTargetAux cp (cuesTotalSize st.cueEntries) k total rest2 = some T →
            cueTarget cp crc S
              (⟨setEntry st.seekEntries key (cp + total), st.cueEntries⟩ : PlanState) k =
              some T := by
          intro k T h
          have hS : cueTarget cp crc S st k = some T := hFc k T h
          show cueTargetAux cp (cuesTotalSize st.cueEntries) k
            (crc + seekInfoActualSize (setEntry st.seekEntries key (cp + total))) S = some T
          rw [heq]
          exact hS
        obtain ⟨ha, hb, hc⟩ :=
          ih (⟨setEntry st.seekEntries key (cp + total), st.cueEntries⟩ : PlanState)
            total hInv2 hsn2 hcn2 hFs2 hFc2 hsubS2 hsubC2
        have hmu : planMeasure
            (⟨setEntry st.seekEntries key (cp + total), st.cueEntries⟩ : PlanState) =
            planMeasure st := by
          unfold planMeasure
          show seekInfoActualSize (setEntry st.seekEntries key (cp + total)) +
            cuesTotalSize st.cueEntries = _
          rw [heq]
        refine ⟨ha, by omega, fun hnone => by have := hc hnone; omega⟩
      · rw [if_neg heq]
        have hlt : planMeasure st < planMeasure
            (⟨setEntry st.seekEntries key (cp + total), st.cueEntries⟩ : PlanState) := by
          unfold planMeasure
          show seekInfoActualSize st.seekEntries + cuesTotalSize st.cueEntries <
            seekInfoActualSize (setEntry st.seekEntries key (cp + total)) +
              cuesTotalSize st.cueEntries
          omega
        exact ⟨hInv2, le_of_lt hlt, fun _ => hlt⟩
    | seekPushConst key off =>
      have hkeys : seekStepKeys (PlanStep.seekPushConst key off :: rest2) =
          key :: seekStepKeys rest2 := by
        simp [seekStepKeys, seekStepKey]
      rw [hkeys] at hsn
      obtain ⟨hkey_tail, hsn2⟩ := List.nodup_cons.mp hsn
      have hcn2 : (cueStepKeys rest2).Nodup := by
        simpa [cueStepKeys, cueStepKey] using hcn
      have hkeyS : key ∈ seekStepKeys S :=
        hsubS key (by simp [seekStepKeys, seekStepKey])
      have hT : seekTarget cp crc S st key = some off :=
        hFs key off (by simp [seekTargetAux])
      obtain ⟨hge, hInv2⟩ :=
        planInv_seekUpdate cp crc S st key off hInv hkeyS hT
      have hsubS2 : ∀ k, k ∈ seekStepKeys rest2 → k ∈ seekStepKeys S := fun k hk =>
        hsubS k (by simp only [hkeys]; exact List.mem_cons_of_mem _ hk)
      have hsubC2 : ∀ k, k ∈ cueStepKeys rest2 → k ∈ cueStepKeys S := fun k hk =>
        hsubC k (by simpa [cueStepKeys, cueStepKey] using hk)
      simp only [runPassAux]
      by_cases heq : seekInfoActualSize (setEntry st.seekEntries key off) =
          seekInfoActualSize st.seekEntries
      · rw [if_pos heq]
        have hFs2 : ∀ k T,
            seekTargetAux cp (cuesTotalSize st.cueEntries) k total rest2 = some T →
            seekTarget cp crc S
              (⟨setEntry st.seekEntries key off, st.cueEntries⟩ : PlanState) k =
              some T := by
          intro k T h
          have hkmem : k ∈ seekStepKeys rest2 := seekTargetAux_mem _ _ _ _ _ _ h
          have hkne : ¬ key = k := fun hkk => hkey_tail (hkk ▸ hkmem)
          have hS : seekTarget cp crc S st k = some T := by
            apply hFs k T
            simp only [seekTargetAux, if_neg hkne]
            exact h
          show seekTargetAux cp (cuesTotalSize st.cueEntries) k
            (crc + seekInfoActualSize (setEntry st.seekEntries key off)) S = some T
          rw [heq]
          exact hS
        have hFc2 : ∀ k T,
            cueTargetAux cp (cuesTotalSize st.cueEntries) k total rest2 = some T →
            cueTarget cp crc S
              (⟨setEntry st.seekEntries key off, st.cueEntries⟩ : PlanState) k =
              some T := by
          intro k T h
          have hS : cueTarget cp crc S st k = some T := hFc k T h
          show cueTargetAux cp (cuesTotalSize st.cueEntries) k
            (crc + seekInfoActualSize (setEntry st.seekEntries key off)) S = some T
          rw [heq]
          exact hS
        obtain ⟨ha, hb, hc⟩ :=
          ih (⟨setEntry st.seekEntries key off, st.cueEntries⟩ : PlanState)
            total hInv2 hsn2 hcn2 hFs2 hFc2 hsubS2 hsubC2
        have hmu : planMeasure
            (⟨setEntry st.seekEntries key off, st.cueEntries⟩ : PlanState) =
            planMeasure st := by
          unfold planMeasure
          show seekInfoActualSize (setEntry st.seekEntries key off) +
            cuesTotalSize st.cueEntries = _
          rw [heq]
        refine ⟨ha, by omega, fun hnone => by have := hc hnone; omega⟩
      · rw [if_neg heq]
        have hlt : planMeasure st < planMeasure
            (⟨setEntry st.seekEntries key off, st.cueEntries⟩ : PlanState) := by
          unfold planMeasure
          show seekInfoActualSize st.seekEntries + cuesTotalSize st.cueEntries <
            seekInfoActualSize (setEntry st.seekEntries key off) +
              cuesTotalSize st.cueEntries
          omega
        exact ⟨hInv2, le_of_lt hlt, fun _ => hlt⟩
    | cuesUpdate key =>
      have hkeys : cueStepKeys (PlanStep.cuesUpdate key :: rest2) =
          key :: cueStepKeys rest2 := by
        simp [cueStepKeys, cueStepKey]
      rw [hkeys] at hcn
      obtain ⟨hkey_tail, hcn2⟩ := List.nodup_cons.mp hcn
      have hsn2 : (seekStepKeys rest2).Nodup := by
        simpa [seekStepKeys, seekStepKey] using hsn
      have hkeyS : key ∈ cueStepKeys S :=
        hsubC key (by simp [cueStepKeys, cueStepKey])
      have hT : cueTarget cp crc S st key = some (cp + total) :=
        hFc key (cp + total) (by simp [cueTargetAux])
      obtain ⟨hge, hInv2⟩ :=
        planInv_cueUpdate cp crc S st key (cp + total) hInv hkeyS hT
      have hsubS2 : ∀ k, k ∈ seekStepKeys rest2 → k ∈ seekStepKeys S := fun k hk =>
        hsubS k (by simpa [seekStepKeys, seekStepKey] using hk)
      have hsubC2 : ∀ k, k ∈ cueStepKeys rest2 → k ∈ cueStepKeys S := fun k hk =>
        hsubC k (by simp only [hkeys]; exact List.mem_cons_of_mem _ hk)
      simp only [runPassAux]
      by_cases heq : cuesTotalSize (setEntry st.cueEntries key (cp + total)) =
          cuesTotalSize st.cueEntries
      · rw [if_pos heq]
        have hFs2 : ∀ k T,
            seekTargetAux cp (cuesTotalSize (setEntry st.cueEntries key (cp + total)))
              k total rest2 = some T →
            seekTarget cp crc S
              (⟨st.seekEntries, setEntry st.cueEntries key (cp + total)⟩ : PlanState) k =
              some T := by
          intro k T h
          rw [heq] at h
          have hS : seekTarget cp crc S st k = some T := hFs k T h
          show seekTargetAux cp (cuesTotalSize (setEntry st.cueEntries key (cp + total))) k
            (crc + seekInfoActualSize st.seekEntries) S = some T
          rw [heq]
          exact hS
        have hFc2 : ∀ k T,
            cueTargetAux cp (cuesTotalSize (setEntry st.cueEntries key (cp + total)))
              k total rest2 = some T →
            cueTarget cp crc S
              (⟨st.seekEntries, setEntry st.cueEntries key (cp + total)⟩ : PlanState) k =
              some T := by
          intro k T h
          rw [heq] at h
          have hkmem : k ∈ cueStepKeys rest2 := cueTargetAux_mem _ _ _ _ _ _ h
          have hkne : ¬ key = k := fun hkk => hkey_tail (hkk ▸ hkmem)
          have hS : cueTarget cp crc S st k = some T := by
            apply hFc k T
            simp only [cueTargetAux, if_neg hkne]
            exact h
          show cueTargetAux cp (cuesTotalSize (setEntry st.cueEntries key (cp + total))) k
            (crc + seekInfoActualSize st.seekEntries) S = some T
          rw [heq]
          exact hS
        obtain ⟨ha, hb, hc⟩ :=
          ih (⟨st.seekEntries, setEntry st.cueEntries key (cp + total)⟩ : PlanState)
            total hInv2 hsn2 hcn2 hFs2 hFc2 hsubS2 hsubC2
        have hmu : planMeasure
            (⟨st.seekEntries, setEntry st.cueEntries key (cp + total)⟩ : PlanState) =
            planMeasure st := by
          unfold planMeasure
          show seekInfoActualSize st.seekEntries +
            cuesTotalSize (setEntry st.cueEntries key (cp + total)) = _
          rw [heq]
        refine ⟨ha, by omega, fun hnone => by have := hc hnone; omega⟩
      · rw [if_neg heq]
        have hlt : planMeasure st < planMeasure
            (⟨st.seekEntries, setEntry st.cueEntries key (cp + total)⟩ : PlanState) := by
          unfold planMeasure
          show seekInfoActualSize st.seekEntries + cuesTotalSize st.cueEntries <
            seekInfoActualSize st.seekEntries +
              cuesTotalSize (setEntry st.cueEntries key (cp + total))
          omega
        exact ⟨hInv2, le_of_lt hlt, fun _ => hlt⟩
    | cuesUpdateConst key off =>
      have hkeys : cueStepKeys (PlanStep.cuesUpdateConst key off :: rest2) =
          key :: cueStepKeys rest2 := by
        simp [cueStepKeys, cueStepKey]
      rw [hkeys] at hcn
      obtain ⟨hkey_tail, hcn2⟩ := List.nodup_cons.mp hcn
      have hsn2 : (seekStepKeys rest2).Nodup := by
        simpa [seekStepKeys, seekStepKey] using hsn
      have hkeyS : key ∈ cueStepKeys S :=
        hsubC key (by simp [cueStepKeys, cueStepKey])
      have hT : cueTarget cp crc S st key = some off :=
        hFc key off (by simp [cueTargetAux])
      obtain ⟨hge, hInv2⟩ :=
        planInv_cueUpdate cp crc S st key off hInv hkeyS hT
      have hsubS2 : ∀ k, k ∈ seekStepKeys rest2 → k ∈ seekStepKeys S := fun k hk =>
        hsubS k (by simpa [seekStepKeys, seekStepKey] using hk)
      have hsubC2 : ∀ k, k ∈ cueStepKeys rest2 → k ∈ cueStepKeys S := fun k hk =>
        hsubC k (by simp only [hkeys]; exact List.mem_cons_of_mem _ hk)
      simp only [runPassAux]
      by_cases heq : cuesTotalSize (setEntry st.cueEntries key off) =
          cuesTotalSize st.cueEntries
      · rw [if_pos heq]
        have hFs2 : ∀ k T,
            seekTargetAux cp (cuesTotalSize (setEntry st.cueEntries key off))
              k total rest2 = some T →
            seekTarget cp crc S
              (⟨st.seekEntries, setEntry st.cueEntries key off⟩ : PlanState) k =
              some T := by
          intro k T h
          rw [heq] at h
          have hS : seekTarget cp crc S st k = some T := hFs k T h
          show seekTargetAux cp (cuesTotalSize (setEntry st.cueEntries key off)) k
            (crc + seekInfoActualSize st.seekEntries) S = some T
          rw [heq]
          exact hS
        have hFc2 : ∀ k T,
            cueTargetAux cp (cuesTotalSize (setEntry st.cueEntries key off))
              k total rest2 = some T →
            cueTarget cp crc S
              (⟨st.seekEntries, setEntry st.cueEntries key off⟩ : PlanState) k =
              some T := by
          intro k T h
          rw [heq] at h
          have hkmem : k ∈ cueStepKeys rest2 := cueTargetAux_mem _ _ _ _ _ _ h
          have hkne : ¬ key = k := fun hkk => hkey_tail (hkk ▸ hkmem)
          have hS : cueTarget cp crc S st k = some T := by
            apply hFc k T
            simp only [cueTargetAux, if_neg hkne]
            exact h
          show cueTargetAux cp (cuesTotalSize (setEntry st.cueEntries key off)) k
            (crc + seekInfoActualSize st.seekEntries) S = some T
          rw [heq]
          exact hS
        obtain ⟨ha, hb, hc⟩ :=
          ih (⟨st.seekEntries, setEntry st.cueEntries key off⟩ : PlanState)
            total hInv2 hsn2 hcn2 hFs2 hFc2 hsubS2 hsubC2
        have hmu : planMeasure
            (⟨st.seekEntries, setEntry st.cueEntries key off⟩ : PlanState) =
            planMeasure st := by
          unfold planMeasure
          show seekInfoActualSize st.seekEntries +
            cuesTotalSize (setEntry st.cueEntries key off) = _
          rw [heq]
        refine ⟨ha, by omega, fun hnone => by have := hc hnone; omega⟩
      · rw [if_neg heq]
        have hlt : planMeasure st < planMeasure
            (⟨st.seekEntries, setEntry st.cueEntries key off⟩ : PlanState) := by
          unfold planMeasure
          show seekInfoActualSize st.seekEntries + cuesTotalSize st.cueEntries <
            seekInfoActualSize st.seekEntries +
              cuesTotalSize (setEntry st.cueEntries key off)
          omega
        exact ⟨hInv2, le_of_lt hlt, fun _ => hlt⟩

/-- Helper: a full pass from the start preserves the invariant, never
shrinks the size measure, and strictly grows it when it restarts. -/
theorem runSegmentPass_spec (cp crc : Nat) (S : List PlanStep) (st : PlanState)
    (hInv : PlanInv cp crc S st)
    (hsn : (seekStepKeys S).Nodup) (hcn : (cueStepKeys S).Nodup) :
    PlanInv cp crc S (runSegmentPass cp crc S st).1 ∧
    planMeasure st ≤ planMeasure (runSegmentPass cp crc S st).1 ∧
    ((runSegmentPass cp crc S st).2 = none →
      planMeasure st < planMeasure (runSegmentPass cp crc S st).1) :=
  runPassAux_spec cp crc S S st (crc + seekInfoActualSize st.seekEntries)
    hInv hsn hcn (fun _ _ h => h) (fun _ _ h => h) (fun _ hk => hk) (fun _ hk => hk)

/-- Helper: under the invariant the size measure is bounded by the
step-list bound. -/
theorem planMeasure_le_bound (cp crc : Nat) (S : List PlanStep) (st : PlanState)
    (hInv : PlanInv cp crc S st) :
    planMeasure st ≤ planMeasureBound S := by
  have h1 : st.seekEntries.length ≤ (seekStepKeys S).length := by
    have hsub : st.seekEntries.map Prod.fst ⊆ seekStepKeys S := fun k hk =>
      hInv.seekKeysSub k hk
    have := (List.subperm_of_subset hInv.seekNodup hsub).length_le
    simpa using this
  have h2 : st.cueEntries.length ≤ (cueStepKeys S).length := by
    have hsub : st.cueEntries.map Prod.fst ⊆ cueStepKeys S := fun k hk =>
      hInv.cueKeysSub k hk
    have := (List.subperm_of_subset hInv.cueNodup hsub).length_le
    simpa using this
  have h3 : seekInfoActualSize st.seekEntries ≤ 12 + 20 * st.seekEntries.length := by
    unfold seekInfoActualSize
    have := map_sum_le_twenty seekEntrySize seekEntrySize_le st.seekEntries
    omega
  have h4 : cuesTotalSize st.cueEntries ≤ 12 + 20 * st.cueEntries.length := by
    unfold cuesTotalSize
    have := map_sum_le_twenty cueEntrySize cueEntrySize_le st.cueEntries
    omega
  unfold planMeasure planMeasureBound
  omega

/-- Helper: with fuel exceeding the remaining slack of the size
measure, the restart loop reaches a pass with no size change. -/
theorem calculateSegmentSizeIter_some (cp crc : Nat) (S : List PlanStep)
    (hsn : (seekStepKeys S).Nodup) (hcn : (cueStepKeys S).Nodup) :
    ∀ (fuel : Nat) (st : PlanState), PlanInv cp crc S st →
      planMeasureBound S < fuel + planMeasure st →
      ∃ r, calculateSegmentSizeIter cp crc S fuel st = some r := by
  intro fuel
  induction fuel with
  | zero =>
    intro st hInv hb
    have := planMeasure_le_bound cp crc S st hInv
    omega
  | succ f ihf =>
    intro st hInv hb
    obtain ⟨h1, h2, h3⟩ := runSegmentPass_spec cp crc S st hInv hsn hcn
    rcases hrun : runSegmentPass cp crc S st with ⟨st2, r⟩
    rw [hrun] at h1 h2 h3
    simp only at h1 h2 h3
    cases r with
    | some total =>
      exact ⟨(st2, total), by simp [calculateSegmentSizeIter, hrun]⟩
    | none =>
      have hlt : planMeasure st < planMeasure st2 := h3 rfl
      obtain ⟨r2, hr2⟩ := ihf st2 h1 (by omega)
      exact ⟨r2, by simp [calculateSegmentSizeIter, hrun, hr2]⟩

/-- Helper: the invariant holds for the state with no entries.  This is
the state of the seek info on entry to Phase B, but not of the cues
updater, which is pre-populated at line 958. -/
theorem planInv_empty (cp crc : Nat) (S : List PlanStep) :
    PlanInv cp crc S ⟨[], []⟩ := by
  constructor <;> simp

/-- Helper: the Phase B segment-size fixed point terminates from every
state satisfying the from-below invariant.  For any pass structure (any
constant contributions and any distinct SeekHead and cue keys, covering
the pushes of lines 1000-1078 and the updates of lines 1114-1121 and
1227-1238), the restart loop reaches, within an explicit bound of
restarts, a full pass in which every push and update reports no size
change.  This formalizes the monotone termination argument of the spec;
it does not cover the program's actual entry state, whose cues updater
is pre-populated from the original Cues element at line 958 with stored
offsets that may exceed the recomputed targets. -/
theorem calculateSegmentSizeIter_terminates_from_inv (cp crc : Nat) (S : List PlanStep)
    (st : PlanState)
    (hsn : (seekStepKeys S).Nodup) (hcn : (cueStepKeys S).Nodup)
    (hInv : PlanInv cp crc S st) :
    ∃ r, calculateSegmentSizeIter cp crc S (planMeasureBound S + 1) st = some r :=
  calculateSegmentSizeIter_some cp crc S hsn hcn (planMeasureBound S + 1) st hInv
    (by omega)
